import Mathlib

/-!
# ptoop: a string-keyed prototype table (`ptoop.c`, `ptoop.h`)

Shallow embedding of the storage engine of `ptoop.c` and the properties of its
operations.

Modelling conventions.

* A C string (`char *identifier`) is the list of its bytes before the terminating
  NUL, each byte in `1..255`.
* A `void *` value is either a word supplied by the caller (`VoidPtr.word`, with
  `word 0` the null pointer) or the address of the `val` member of a node
  (`VoidPtr.slot`).
* A `Tnode **` value (the address of a cell holding a `Tnode *`) is a `Cell`: a
  bucket of the table followed by a chain of `left`/`right` members.  A node is
  owned by exactly one cell, and `tadd` never moves or unlinks a node, so the
  cell identifies the node and the address of its members.
* A `Tnode *` value is a `TnodePtr`: `NULL` or a node with its two subtrees.
* Destructors are caller callbacks; an invocation is recorded as a `Call` in a
  trace, in program order.
* Behaviour that C leaves undefined (calling a null function pointer, a division
  by zero, an access outside the bucket array or to released storage) is a
  `Fault`.  `malloc`, `calloc` and `strdup` are taken to succeed.
-/

namespace Ptoop

/-! ## Data model -/

/-- Target-dependent facts the code relies on: the width of `unsigned long` and
whether plain `char` is signed. -/
structure Abi where
  ulongBits : Nat
  charSigned : Bool
deriving DecidableEq

/-- The usual 64-bit target: `unsigned long` has 64 bits, `char` is signed. -/
def lp64 : Abi := ⟨64, true⟩

/-- C strings: the bytes before the terminating NUL, each in `1..255`. -/
abbrev CStr := { s : List Nat // s.all (fun b => decide (0 < b ∧ b < 256)) = true }

/-- The values of the anonymous `enum` of `ptoop.h`, stored in `descriptor`. -/
inductive Descriptor
  | ptfunction
  | ptboxed
  | ptreference
  | ptunmanaged
deriving DecidableEq

/-- Values of type `Tnode **`: the address of a cell that holds a `Tnode *`. -/
inductive Cell
  | bucket (i : Nat)
  | left (c : Cell)
  | right (c : Cell)
deriving DecidableEq

/-- Values of type `void *`. -/
inductive VoidPtr
  | word (w : Nat)
  | slot (c : Cell)
deriving DecidableEq

/-- The null pointer. -/
def NULL : VoidPtr := VoidPtr.word 0

/-- Values of type `void (*)(void *)`: `none` is the null function pointer. -/
abbrev Freer := Option Nat

/-- Values of type `Tnode *`: the null pointer, or a node with the members of
`struct tnode`. -/
inductive TnodePtr
  | NULL
  | node (identifier : CStr) (descriptor : Descriptor) (freer : Freer) (val : VoidPtr)
      (left right : TnodePtr)
deriving DecidableEq

/-- One destructor invocation `f(arg)`. -/
abbrev Call := Nat × VoidPtr

/-- Undefined behaviour the operations can run into. -/
inductive Fault
  | nullCall
  | nullDeref
  | divByZero
  | outOfBounds
  | useAfterFree
deriving DecidableEq

/-- The members of the `prototype` struct; `nodes` is the bucket array. -/
structure prototype where
  len : Int
  freed : Bool
  nodes : List TnodePtr
deriving DecidableEq

/-- What a `prototype *` designates: null, a live allocation with its contents,
or an allocation that was passed to `free`. -/
inductive ProtoPtr
  | null
  | live (p : prototype)
  | released
deriving DecidableEq

/-! ## Operations -/

/-- `strcmp` on byte lists: the difference of the first pair of differing bytes
(as `unsigned char`, the terminator counting as 0), or 0. -/
def strcmpBytes : List Nat → List Nat → Int
  | [], [] => 0
  | [], b :: _ => 0 - (b : Int)
  | a :: _, [] => (a : Int) - 0
  | a :: s, b :: t => if a = b then strcmpBytes s t else (a : Int) - (b : Int)

/-- `strcmp` of two C strings. -/
def strcmp (a b : CStr) : Int := strcmpBytes a.val b.val

/-- `talloc`: a fresh node with both children null. -/
def talloc (identifier : CStr) (descriptor : Descriptor) (freer : Freer) (val : VoidPtr) :
    TnodePtr :=
  TnodePtr.node identifier descriptor freer val TnodePtr.NULL TnodePtr.NULL

/-- `tfreeval`: for `ptboxed` and `ptreference` calls `node->freer(node->val)`,
otherwise does nothing. -/
def tfreeval : TnodePtr → Except Fault (List Call)
  | TnodePtr.NULL => Except.error Fault.nullDeref
  | TnodePtr.node _ d f v _ _ =>
    match d with
    | Descriptor.ptboxed | Descriptor.ptreference =>
      match f with
      | none => Except.error Fault.nullCall
      | some g => Except.ok [(g, v)]
    | _ => Except.ok []

/-- `tfree`: releases the node's value, then the left and the right subtree. -/
def tfree : TnodePtr → Except Fault (List Call)
  | TnodePtr.NULL => Except.ok []
  | TnodePtr.node i d f v l r => do
    let a ← tfreeval (TnodePtr.node i d f v l r)
    let b ← tfree l
    let c ← tfree r
    pure (a ++ b ++ c)

/-- The closing `switch` of `tadd`: `val` for `ptboxed`, `&(*node_ptr)->val` for
the other three descriptors. -/
def taddReturn (node_ptr : Cell) (descriptor : Descriptor) (val : VoidPtr) : VoidPtr :=
  match descriptor with
  | Descriptor.ptboxed => val
  | _ => VoidPtr.slot node_ptr

/-- `tadd`: the tree stored in `*node_ptr` afterwards, the returned pointer and
the destructor calls made. -/
def tadd (node_ptr : Cell) :
    TnodePtr → CStr → Descriptor → Freer → VoidPtr →
      Except Fault (TnodePtr × VoidPtr × List Call)
  | TnodePtr.NULL, identifier, descriptor, freer, val =>
    Except.ok (talloc identifier descriptor freer val,
      taddReturn node_ptr descriptor val, [])
  | TnodePtr.node i d f v l r, identifier, descriptor, freer, val =>
    let cmp := strcmp identifier i
    if cmp ≠ 0 then
      if cmp > 0 then do
        let (r', h, cs) ← tadd (Cell.right node_ptr) r identifier descriptor freer val
        pure (TnodePtr.node i d f v l r', h, cs)
      else do
        let (l', h, cs) ← tadd (Cell.left node_ptr) l identifier descriptor freer val
        pure (TnodePtr.node i d f v l' r, h, cs)
    else do
      let cs ← tfreeval (TnodePtr.node i d f v l r)
      pure (TnodePtr.node i descriptor freer val l r,
        taddReturn node_ptr descriptor val, cs)

/-- The closing `switch` of `tget`: `node->val` for `ptboxed` and `ptfunction`,
`&node->val` for `ptreference` and `ptunmanaged`. -/
def tgetReturn (node : Cell) (descriptor : Descriptor) (val : VoidPtr) : VoidPtr :=
  match descriptor with
  | Descriptor.ptboxed | Descriptor.ptfunction => val
  | _ => VoidPtr.slot node

/-- `tget`; `node` is the cell that holds the pointer passed in. -/
def tget (node : Cell) : TnodePtr → CStr → VoidPtr
  | TnodePtr.NULL, _ => NULL
  | TnodePtr.node i d _ v l r, identifier =>
    let cmp := strcmp identifier i
    if cmp ≠ 0 then
      if cmp > 0 then tget (Cell.right node) r identifier
      else tget (Cell.left node) l identifier
    else tgetReturn node d v

/-- `palloc`: `len` empty buckets, not freed. -/
def palloc (len : Int) : prototype :=
  ⟨len, false, List.replicate len.toNat TnodePtr.NULL⟩

/-- Conversion of an `int` to `unsigned long`. -/
def toULong (abi : Abi) (n : Int) : Nat :=
  if 0 ≤ n then n.toNat else 2 ^ abi.ulongBits - n.natAbs

/-- The value of `*(name++)` converted to `unsigned long`. -/
def charToULong (abi : Abi) (b : Nat) : Nat :=
  if abi.charSigned ∧ 128 ≤ b then 2 ^ abi.ulongBits - 256 + b else b

/-- `phash`: from 5381, `hash = hash * 33 + *(name++)` for each byte, in
`unsigned long` arithmetic. -/
def phash (abi : Abi) (name : CStr) : Nat :=
  name.val.foldl (fun hash b => (hash * 33 + charToULong abi b) % 2 ^ abi.ulongBits) 5381

/-- The subscript `phash(identifier) % p->len`. -/
def bucketIndex (abi : Abi) (p : prototype) (identifier : CStr) : Except Fault Nat :=
  if toULong abi p.len = 0 then Except.error Fault.divByZero
  else Except.ok (phash abi identifier % toULong abi p.len)

/-- `padd` on a live table: the table afterwards, the returned pointer and the
destructor calls. -/
def padd (abi : Abi) (p : prototype) (identifier : CStr) (descriptor : Descriptor)
    (freer : Freer) (val : VoidPtr) : Except Fault (prototype × VoidPtr × List Call) := do
  let i ← bucketIndex abi p identifier
  match p.nodes[i]? with
  | none => Except.error Fault.outOfBounds
  | some t =>
    let (t', h, cs) ← tadd (Cell.bucket i) t identifier descriptor freer val
    pure ({ p with nodes := p.nodes.set i t' }, h, cs)

/-- `pget` on a live table: the returned pointer; the table is only read. -/
def pget (abi : Abi) (p : prototype) (identifier : CStr) : Except Fault VoidPtr := do
  let i ← bucketIndex abi p identifier
  match p.nodes[i]? with
  | none => Except.error Fault.outOfBounds
  | some t => pure (tget (Cell.bucket i) t identifier)

/-- The macro `ptfieldr` of `ptoop.h` up to its cast and dereference:
`padd(pt, identifier, freer ? ptreference : ptunmanaged, (void *) freer, NULL)`. -/
def ptfieldr (abi : Abi) (pt : prototype) (identifier : CStr) (freer : Freer) :
    Except Fault (prototype × VoidPtr × List Call) :=
  padd abi pt identifier
    (if freer.isSome then Descriptor.ptreference else Descriptor.ptunmanaged) freer NULL

/-- The macro `ptmethod` of `ptoop.h` up to its cast and dereference:
`padd(pt, identifier, ptfunction, NULL, NULL)`. -/
def ptmethod (abi : Abi) (pt : prototype) (identifier : CStr) :
    Except Fault (prototype × VoidPtr × List Call) :=
  padd abi pt identifier Descriptor.ptfunction none NULL

/-- The loop of `pfree` over the subscripts `is`: `tfree(p->nodes[i])` for each. -/
def tfreeEach (nodes : List TnodePtr) : List Nat → Except Fault (List Call)
  | [] => Except.ok []
  | i :: is =>
    match nodes[i]? with
    | none => Except.error Fault.outOfBounds
    | some t => do
      let a ← tfree t
      let b ← tfreeEach nodes is
      pure (a ++ b)

/-- `pfree`: what `p` designates afterwards, and the destructor calls made. -/
def pfree : ProtoPtr → Except Fault (ProtoPtr × List Call)
  | ProtoPtr.null => Except.ok (ProtoPtr.null, [])
  | ProtoPtr.released => Except.error Fault.useAfterFree
  | ProtoPtr.live p =>
    if p.freed then Except.ok (ProtoPtr.live p, [])
    else do
      let cs ← tfreeEach p.nodes (List.range p.len.toNat)
      pure (ProtoPtr.released, cs)

/-! ## Observations used to state the properties -/

/-- A step from a node to one of its two child cells. -/
inductive Dir
  | left
  | right
deriving DecidableEq

/-- The cell `&(*c)->left` or `&(*c)->right`. -/
def Cell.step (c : Cell) : Dir → Cell
  | Dir.left => Cell.left c
  | Dir.right => Cell.right c

/-- The cell reached from `c` by a chain of child links. -/
def Cell.walk (c : Cell) (path : List Dir) : Cell := path.foldl Cell.step c

/-- The members `node->left` and `node->right`. -/
def TnodePtr.child : TnodePtr → Dir → TnodePtr
  | TnodePtr.NULL, _ => TnodePtr.NULL
  | TnodePtr.node _ _ _ _ l _, Dir.left => l
  | TnodePtr.node _ _ _ _ _ r, Dir.right => r

/-- The pointer found by following a chain of child links from `t`. -/
def TnodePtr.sub (t : TnodePtr) (path : List Dir) : TnodePtr := path.foldl TnodePtr.child t

/-- The node with its member `val` overwritten (`node->val = x`). -/
def TnodePtr.setVal : TnodePtr → VoidPtr → TnodePtr
  | TnodePtr.NULL, _ => TnodePtr.NULL
  | TnodePtr.node i d f _ l r, x => TnodePtr.node i d f x l r

/-- A caller's write of `x` through the address of the `val` member of the node
reached from `t` by a chain of child links (`*(void **)h = x`). -/
def TnodePtr.store : TnodePtr → List Dir → VoidPtr → TnodePtr
  | t, [], x => t.setVal x
  | TnodePtr.NULL, _ :: _, _ => TnodePtr.NULL
  | TnodePtr.node i d f v l r, Dir.left :: path, x =>
    TnodePtr.node i d f v (l.store path x) r
  | TnodePtr.node i d f v l r, Dir.right :: path, x =>
    TnodePtr.node i d f v l (r.store path x)

/-- The pointer stored in a cell of the table (`*c`). -/
def prototype.deref (p : prototype) : Cell → TnodePtr
  | Cell.bucket i => p.nodes.getD i TnodePtr.NULL
  | Cell.left c => (p.deref c).child Dir.left
  | Cell.right c => (p.deref c).child Dir.right

/-- The member `val` of a node, if the pointer is not null. -/
def TnodePtr.val? : TnodePtr → Option VoidPtr
  | TnodePtr.NULL => none
  | TnodePtr.node _ _ _ v _ _ => some v

/-- Reading a `void *` through a handle that is the address of a node's `val`
member (`*(void **)h`); other handles point to caller memory. -/
def prototype.load (p : prototype) : VoidPtr → Option VoidPtr
  | VoidPtr.slot c => (p.deref c).val?
  | VoidPtr.word _ => none

/-- The contents of one node: identifier, descriptor, destructor, value. -/
abbrev Entry := CStr × Descriptor × Freer × VoidPtr

/-- In-order traversal of a tree. -/
def TnodePtr.entries : TnodePtr → List Entry
  | TnodePtr.NULL => []
  | TnodePtr.node i d f v l r => l.entries ++ (i, d, f, v) :: r.entries

/-- Identifiers of a tree, in in-order. -/
def TnodePtr.keys (t : TnodePtr) : List CStr := t.entries.map Prod.fst

/-- Pre-order traversal of a tree (the order in which `tfree` visits it). -/
def TnodePtr.preorder : TnodePtr → List Entry
  | TnodePtr.NULL => []
  | TnodePtr.node i d f v l r => (i, d, f, v) :: (l.preorder ++ r.preorder)

/-- The descriptors whose value `tfreeval` releases. -/
def Descriptor.owned : Descriptor → Bool
  | Descriptor.ptboxed => true
  | Descriptor.ptreference => true
  | _ => false

/-- The destructor call owed for a node: `freer(val)` when the descriptor is
owned and the destructor is not null. -/
def Entry.release (e : Entry) : Option Call :=
  if e.2.1.owned then e.2.2.1.map (fun g => (g, e.2.2.2)) else none

/-- The destructor calls owed for a list of nodes, in the order of the list. -/
def owed (es : List Entry) : List Call := es.filterMap Entry.release

/-- An entry is releasable when it is not an owned value with a null destructor. -/
def Entry.hasFreer (e : Entry) : Bool := !e.2.1.owned || e.2.2.1.isSome

/-- Every owned node of the tree has a destructor. -/
def TnodePtr.hasFreers (t : TnodePtr) : Bool := t.entries.all Entry.hasFreer

/-- Strictly ascending in `strcmp` order, each element below the next. -/
def ascending (ks : List CStr) : Prop := ks.Chain' (fun a b => strcmp a b < 0)

/-- All nodes of the table, bucket by bucket. -/
def prototype.entries (p : prototype) : List Entry := (p.nodes.map TnodePtr.entries).flatten

/-- Every owned node of the table has a destructor. -/
def prototype.hasFreers (p : prototype) : Bool := p.nodes.all TnodePtr.hasFreers

/-- A table as `palloc` with a positive count lays it out: `len` is positive and
the bucket array has `len` elements. -/
def prototype.wf (p : prototype) : Prop := 0 < p.len ∧ p.nodes.length = p.len.toNat

/-- The invariant of the data model: the table is laid out as by `palloc`, every
bucket is in ascending order, and every node sits in the bucket of its hash. -/
def prototype.Inv (abi : Abi) (p : prototype) : Prop :=
  p.wf ∧ ∀ i t, p.nodes[i]? = some t →
    ascending t.keys ∧ ∀ k ∈ t.keys, phash abi k % p.len.toNat = i

/-- One `padd` call: its arguments after the table. -/
structure Insert where
  identifier : CStr
  descriptor : Descriptor
  freer : Freer
  val : VoidPtr
deriving DecidableEq

/-- The node contents a `padd` call asks for. -/
def Insert.entry (op : Insert) : Entry := (op.identifier, op.descriptor, op.freer, op.val)

/-- A sequence of `padd` calls on a table: the final table and all destructor
calls, in order. -/
def padds (abi : Abi) (p : prototype) : List Insert → Except Fault (prototype × List Call)
  | [] => Except.ok (p, [])
  | op :: ops => do
    let (p1, _, c1) ← padd abi p op.identifier op.descriptor op.freer op.val
    let (p2, c2) ← padds abi p1 ops
    pure (p2, c1 ++ c2)

/-- A whole lifetime: `palloc(len)`, the given `padd` calls, one `pfree`. -/
def lifetime (abi : Abi) (len : Int) (ops : List Insert) : Except Fault (List Call) := do
  let (p, c1) ← padds abi (palloc len) ops
  let (_, c2) ← pfree (ProtoPtr.live p)
  pure (c1 ++ c2)

/-- The hash as the specification words it: from 5381, `hash = hash * 33 + byte`
for each byte in order, the byte counted with its value in `0..255`, modulo
`2 ^ w`. -/
def phashSpec (w : Nat) (s : List Nat) : Nat :=
  s.foldl (fun hash b => (hash * 33 + b) % 2 ^ w) 5381

/-- The identifier, descriptor, destructor and value of the node a pointer
designates, if it is not null. -/
def TnodePtr.fields : TnodePtr → Option Entry
  | TnodePtr.NULL => none
  | TnodePtr.node i d f v _ _ => some (i, d, f, v)

/-- The subtree in the cell reached from the root by a chain of child links
replaced by `n`; the rest of the tree is kept. -/
def TnodePtr.put : TnodePtr → List Dir → TnodePtr → TnodePtr
  | _, [], n => n
  | TnodePtr.NULL, _ :: _, _ => TnodePtr.NULL
  | TnodePtr.node i d f v l r, Dir.left :: path, n =>
    TnodePtr.node i d f v (l.put path n) r
  | TnodePtr.node i d f v l r, Dir.right :: path, n =>
    TnodePtr.node i d f v l (r.put path n)

/-- The identifier `"x"`. -/
def idX : CStr := ⟨[120], by decide⟩

/-- The identifier `"y"`. -/
def idY : CStr := ⟨[121], by decide⟩

/-! ## Facts about `strcmp` -/

theorem strcmpBytes_self (s : List Nat) : strcmpBytes s s = 0 := by
  induction s with
  | nil => rfl
  | cons a s ih => simp [strcmpBytes, ih]

theorem strcmpBytes_swap (s t : List Nat) : strcmpBytes t s = - strcmpBytes s t := by
  induction s generalizing t with
  | nil => cases t <;> simp [strcmpBytes]
  | cons a s ih =>
    cases t with
    | nil => simp [strcmpBytes]
    | cons b t =>
      by_cases h : a = b
      · subst h; simp [strcmpBytes, ih]
      · have h' : ¬ b = a := fun e => h e.symm
        simp [strcmpBytes, h, h']

theorem strcmpBytes_eq_zero (s t : List Nat) (hs : ∀ b ∈ s, 0 < b) (ht : ∀ b ∈ t, 0 < b)
    (h : strcmpBytes s t = 0) : s = t := by
  induction s generalizing t with
  | nil =>
    cases t with
    | nil => rfl
    | cons b t =>
      have := ht b (by simp)
      simp [strcmpBytes] at h
      omega
  | cons a s ih =>
    cases t with
    | nil =>
      have := hs a (by simp)
      simp [strcmpBytes] at h
      omega
    | cons b t =>
      by_cases e : a = b
      · subst e
        simp [strcmpBytes] at h
        rw [ih t (fun x hx => hs x (by simp [hx])) (fun x hx => ht x (by simp [hx])) h]
      · simp [strcmpBytes, e] at h
        omega

theorem strcmpBytes_trans (s t u : List Nat) (h1 : strcmpBytes s t < 0)
    (h2 : strcmpBytes t u < 0) : strcmpBytes s u < 0 := by
  induction s generalizing t u with
  | nil =>
    cases t with
    | nil => simp [strcmpBytes] at h1
    | cons b t =>
      cases u with
      | nil => simp [strcmpBytes] at h2; omega
      | cons c u =>
        simp [strcmpBytes] at h1
        by_cases e : b = c
        · subst e; simp [strcmpBytes]; omega
        · simp [strcmpBytes, e] at h2
          simp [strcmpBytes]; omega
  | cons a s ih =>
    cases t with
    | nil => simp [strcmpBytes] at h1; omega
    | cons b t =>
      cases u with
      | nil => simp [strcmpBytes] at h2; omega
      | cons c u =>
        by_cases e1 : a = b
        · subst e1
          by_cases e2 : a = c
          · subst e2
            simp [strcmpBytes] at h1 h2 ⊢
            exact ih t u h1 h2
          · simp [strcmpBytes, e2] at h2 ⊢
            simp [strcmpBytes] at h1
            omega
        · by_cases e2 : b = c
          · subst e2
            simp [strcmpBytes, e1] at h1 h2 ⊢
            omega
          · simp [strcmpBytes, e1, e2] at h1 h2
            have e3 : ¬ a = c := by omega
            simp [strcmpBytes, e3]
            omega

theorem CStr.pos (a : CStr) : ∀ b ∈ a.val, 0 < b := by
  intro b hb
  have h := a.property
  rw [List.all_eq_true] at h
  have := h b hb
  simp at this
  exact this.1

theorem strcmp_self (a : CStr) : strcmp a a = 0 := strcmpBytes_self a.val

theorem strcmp_eq_zero_iff (a b : CStr) : strcmp a b = 0 ↔ a = b := by
  constructor
  · intro h
    exact Subtype.ext (strcmpBytes_eq_zero a.val b.val a.pos b.pos h)
  · rintro rfl
    exact strcmp_self a

theorem strcmp_swap (a b : CStr) : strcmp b a = - strcmp a b := strcmpBytes_swap a.val b.val

theorem strcmp_trans (a b c : CStr) (h1 : strcmp a b < 0) (h2 : strcmp b c < 0) :
    strcmp a c < 0 := strcmpBytes_trans a.val b.val c.val h1 h2

/-! ## Facts about `tadd` and `tget` on one tree -/

theorem tadd_node_eq (c : Cell) (i : CStr) (d : Descriptor) (f : Freer) (v : VoidPtr) (l r : TnodePtr)
    (id : CStr) (d' : Descriptor) (f' : Freer) (v' : VoidPtr) :
    tadd c (TnodePtr.node i d f v l r) id d' f' v' =
      if strcmp id i ≠ 0 then
        if strcmp id i > 0 then
          (tadd (Cell.right c) r id d' f' v').map (fun x => (TnodePtr.node i d f v l x.1, x.2.1, x.2.2))
        else
          (tadd (Cell.left c) l id d' f' v').map (fun x => (TnodePtr.node i d f v x.1 r, x.2.1, x.2.2))
      else
        (tfreeval (TnodePtr.node i d f v l r)).map
          (fun cs => (TnodePtr.node i d' f' v' l r, taddReturn c d' v', cs)) := by
  rw [tadd]
  simp only []
  split
  · split
    · cases tadd (Cell.right c) r id d' f' v' <;> rfl
    · cases tadd (Cell.left c) l id d' f' v' <;> rfl
  · cases tfreeval (TnodePtr.node i d f v l r) <;> rfl

theorem tfreeval_node (i : CStr) (d : Descriptor) (f : Freer) (v : VoidPtr) (l r : TnodePtr) :
    tfreeval (TnodePtr.node i d f v l r) =
      if Entry.hasFreer (i, d, f, v) then Except.ok (Entry.release (i, d, f, v)).toList
      else Except.error Fault.nullCall := by
  cases d <;> cases f <;> rfl

theorem except_map_eq_ok {ε α β : Type} (g : α → β) (x : Except ε α) (y : β)
    (h : x.map g = Except.ok y) : ∃ a, x = Except.ok a ∧ g a = y := by
  cases x with
  | error e => simp [Except.map] at h
  | ok a =>
    simp only [Except.map, Except.ok.injEq] at h
    exact ⟨a, rfl, h⟩

theorem walk_cons (c : Cell) (s : Dir) (path : List Dir) :
    c.walk (s :: path) = (c.step s).walk path := rfl

theorem sub_cons (t : TnodePtr) (s : Dir) (path : List Dir) :
    t.sub (s :: path) = (t.child s).sub path := rfl

theorem tget_talloc (c : Cell) (id : CStr) (d : Descriptor) (f : Freer) (v : VoidPtr) :
    tget c (talloc id d f v) id = tgetReturn c d v := by
  simp [talloc, tget, strcmp_self]

/-- What `tadd` leaves behind: a node holding exactly the arguments, reachable
from the root by the search path; the returned pointer and a later `tget` are the
closing switches at that node. -/
theorem tadd_spec (c : Cell) (t : TnodePtr) (id : CStr) (d : Descriptor) (f : Freer)
    (v : VoidPtr) (t' : TnodePtr) (h : VoidPtr) (cs : List Call)
    (hok : tadd c t id d f v = Except.ok (t', h, cs)) :
    ∃ path l r, t'.sub path = TnodePtr.node id d f v l r ∧
      h = taddReturn (c.walk path) d v ∧ tget c t' id = tgetReturn (c.walk path) d v := by
  induction t generalizing c t' h cs with
  | NULL =>
    simp only [tadd, Except.ok.injEq, Prod.mk.injEq] at hok
    obtain ⟨rfl, rfl, rfl⟩ := hok
    exact ⟨[], TnodePtr.NULL, TnodePtr.NULL, rfl, rfl, tget_talloc c id d f v⟩
  | node i d0 f0 v0 l r ihl ihr =>
    rw [tadd_node_eq] at hok
    by_cases h0 : strcmp id i ≠ 0
    · rw [if_pos h0] at hok
      by_cases h1 : strcmp id i > 0
      · rw [if_pos h1] at hok
        obtain ⟨⟨r', h', cs'⟩, hr, he⟩ := except_map_eq_ok _ _ _ hok
        simp only [Prod.mk.injEq] at he
        obtain ⟨rfl, rfl, rfl⟩ := he
        obtain ⟨path, a, b, hs, hh, hg⟩ := ihr (Cell.right c) r' h' cs' hr
        refine ⟨Dir.right :: path, a, b, ?_, ?_, ?_⟩
        · rw [sub_cons]; exact hs
        · rw [walk_cons]; exact hh
        · rw [walk_cons, tget]
          rw [if_pos h0, if_pos h1]; exact hg
      · rw [if_neg h1] at hok
        obtain ⟨⟨l', h', cs'⟩, hl, he⟩ := except_map_eq_ok _ _ _ hok
        simp only [Prod.mk.injEq] at he
        obtain ⟨rfl, rfl, rfl⟩ := he
        obtain ⟨path, a, b, hs, hh, hg⟩ := ihl (Cell.left c) l' h' cs' hl
        refine ⟨Dir.left :: path, a, b, ?_, ?_, ?_⟩
        · rw [sub_cons]; exact hs
        · rw [walk_cons]; exact hh
        · rw [walk_cons, tget]
          rw [if_pos h0, if_neg h1]; exact hg
    · rw [if_neg h0] at hok
      obtain ⟨cs', _, he⟩ := except_map_eq_ok _ _ _ hok
      simp only [Prod.mk.injEq] at he
      obtain ⟨rfl, rfl, rfl⟩ := he
      have hid : id = i := (strcmp_eq_zero_iff id i).1 (by simpa using h0)
      subst hid
      refine ⟨[], l, r, rfl, rfl, ?_⟩
      rw [tget, if_neg h0]; rfl

theorem hasFreers_node (i : CStr) (d : Descriptor) (f : Freer) (v : VoidPtr) (l r : TnodePtr) :
    (TnodePtr.node i d f v l r).hasFreers =
      (l.hasFreers && (Entry.hasFreer (i, d, f, v) && r.hasFreers)) := by
  simp [TnodePtr.hasFreers, TnodePtr.entries, List.all_append]

/-- `tadd` returns whenever every owned node of the tree has a destructor. -/
theorem tadd_ok_of_hasFreers (c : Cell) (t : TnodePtr) (id : CStr) (d : Descriptor) (f : Freer)
    (v : VoidPtr) (hf : t.hasFreers = true) :
    ∃ t' h cs, tadd c t id d f v = Except.ok (t', h, cs) := by
  induction t generalizing c with
  | NULL => exact ⟨_, _, _, rfl⟩
  | node i d0 f0 v0 l r ihl ihr =>
    rw [hasFreers_node] at hf
    simp only [Bool.and_eq_true] at hf
    obtain ⟨hl, he, hr⟩ := hf
    rw [tadd_node_eq]
    by_cases h0 : strcmp id i ≠ 0
    · rw [if_pos h0]
      by_cases h1 : strcmp id i > 0
      · rw [if_pos h1]
        obtain ⟨t', h, cs, e⟩ := ihr (Cell.right c) hr
        exact ⟨_, _, _, by rw [e]; rfl⟩
      · rw [if_neg h1]
        obtain ⟨t', h, cs, e⟩ := ihl (Cell.left c) hl
        exact ⟨_, _, _, by rw [e]; rfl⟩
    · rw [if_neg h0, tfreeval_node, if_pos he]
      exact ⟨_, _, _, rfl⟩

/-- The in-order contents before and after `tadd`: either the new entry is
spliced in and nothing is released, or it replaces the entry with the same
identifier, whose value is released. -/
theorem tadd_entries (c : Cell) (t : TnodePtr) (id : CStr) (d : Descriptor) (f : Freer)
    (v : VoidPtr) (t' : TnodePtr) (h : VoidPtr) (cs : List Call)
    (hok : tadd c t id d f v = Except.ok (t', h, cs)) :
    ∃ A B, t'.entries = A ++ (id, d, f, v) :: B ∧
      ((t.entries = A ++ B ∧ cs = []) ∨
        ∃ e : Entry, e.1 = id ∧ t.entries = A ++ e :: B ∧ e.hasFreer = true ∧
          cs = e.release.toList) := by
  induction t generalizing c t' h cs with
  | NULL =>
    simp only [tadd, Except.ok.injEq, Prod.mk.injEq] at hok
    obtain ⟨rfl, rfl, rfl⟩ := hok
    exact ⟨[], [], rfl, Or.inl ⟨rfl, rfl⟩⟩
  | node i d0 f0 v0 l r ihl ihr =>
    rw [tadd_node_eq] at hok
    by_cases h0 : strcmp id i ≠ 0
    · rw [if_pos h0] at hok
      by_cases h1 : strcmp id i > 0
      · rw [if_pos h1] at hok
        obtain ⟨⟨r', h', cs'⟩, hr, he⟩ := except_map_eq_ok _ _ _ hok
        simp only [Prod.mk.injEq] at he
        obtain ⟨rfl, rfl, rfl⟩ := he
        obtain ⟨A, B, hA, hB⟩ := ihr (Cell.right c) r' h' cs' hr
        refine ⟨l.entries ++ (i, d0, f0, v0) :: A, B, ?_, ?_⟩
        · simp [TnodePtr.entries, hA]
        · rcases hB with ⟨e1, e2⟩ | ⟨e, e1, e2, e3, e4⟩
          · exact Or.inl ⟨by simp [TnodePtr.entries, e1], e2⟩
          · exact Or.inr ⟨e, e1, by simp [TnodePtr.entries, e2], e3, e4⟩
      · rw [if_neg h1] at hok
        obtain ⟨⟨l', h', cs'⟩, hl, he⟩ := except_map_eq_ok _ _ _ hok
        simp only [Prod.mk.injEq] at he
        obtain ⟨rfl, rfl, rfl⟩ := he
        obtain ⟨A, B, hA, hB⟩ := ihl (Cell.left c) l' h' cs' hl
        refine ⟨A, B ++ (i, d0, f0, v0) :: r.entries, ?_, ?_⟩
        · simp [TnodePtr.entries, hA]
        · rcases hB with ⟨e1, e2⟩ | ⟨e, e1, e2, e3, e4⟩
          · exact Or.inl ⟨by simp [TnodePtr.entries, e1], e2⟩
          · exact Or.inr ⟨e, e1, by simp [TnodePtr.entries, e2], e3, e4⟩
    · rw [if_neg h0, tfreeval_node] at hok
      have hid : id = i := (strcmp_eq_zero_iff id i).1 (by simpa using h0)
      subst hid
      by_cases he : Entry.hasFreer (id, d0, f0, v0) = true
      · rw [if_pos he] at hok
        simp only [Except.map, Except.ok.injEq, Prod.mk.injEq] at hok
        obtain ⟨rfl, rfl, rfl⟩ := hok
        exact ⟨l.entries, r.entries, rfl, Or.inr ⟨(id, d0, f0, v0), rfl, rfl, he, rfl⟩⟩
      · rw [if_neg he] at hok
        simp [Except.map] at hok

/-! ## Ordering -/

instance strcmp_isTrans : IsTrans CStr (fun a b => strcmp a b < 0) := ⟨strcmp_trans⟩

theorem ascending_iff_pairwise (ks : List CStr) :
    ascending ks ↔ ks.Pairwise (fun a b => strcmp a b < 0) :=
  List.chain'_iff_pairwise

theorem keys_node (i : CStr) (d : Descriptor) (f : Freer) (v : VoidPtr) (l r : TnodePtr) :
    (TnodePtr.node i d f v l r).keys = l.keys ++ i :: r.keys := by
  simp [TnodePtr.keys, TnodePtr.entries]

theorem tadd_keys_mem (c : Cell) (t : TnodePtr) (id : CStr) (d : Descriptor) (f : Freer)
    (v : VoidPtr) (t' : TnodePtr) (h : VoidPtr) (cs : List Call)
    (hok : tadd c t id d f v = Except.ok (t', h, cs)) (k : CStr) :
    k ∈ t'.keys ↔ k = id ∨ k ∈ t.keys := by
  obtain ⟨A, B, hA, hB⟩ := tadd_entries c t id d f v t' h cs hok
  rcases hB with ⟨e1, _⟩ | ⟨e, e1, e2, _, _⟩
  · simp only [TnodePtr.keys, hA, e1, List.map_append, List.map_cons, List.mem_append,
      List.mem_cons]
    tauto
  · simp only [TnodePtr.keys, hA, e2, e1, List.map_append, List.map_cons, List.mem_append,
      List.mem_cons]
    tauto

theorem tadd_pairwise (c : Cell) (t : TnodePtr) (id : CStr) (d : Descriptor) (f : Freer)
    (v : VoidPtr) (t' : TnodePtr) (h : VoidPtr) (cs : List Call)
    (hs : t.keys.Pairwise (fun a b => strcmp a b < 0))
    (hok : tadd c t id d f v = Except.ok (t', h, cs)) :
    t'.keys.Pairwise (fun a b => strcmp a b < 0) := by
  induction t generalizing c t' h cs with
  | NULL =>
    simp only [tadd, Except.ok.injEq, Prod.mk.injEq] at hok
    obtain ⟨rfl, rfl, rfl⟩ := hok
    simp [talloc, TnodePtr.keys, TnodePtr.entries]
  | node i d0 f0 v0 l r ihl ihr =>
    rw [keys_node, List.pairwise_append, List.pairwise_cons] at hs
    obtain ⟨hl, ⟨hir, hr⟩, hlr⟩ := hs
    rw [tadd_node_eq] at hok
    by_cases h0 : strcmp id i ≠ 0
    · rw [if_pos h0] at hok
      by_cases h1 : strcmp id i > 0
      · rw [if_pos h1] at hok
        obtain ⟨⟨r', h', cs'⟩, hr', he⟩ := except_map_eq_ok _ _ _ hok
        simp only [Prod.mk.injEq] at he
        obtain ⟨rfl, rfl, rfl⟩ := he
        have hm := tadd_keys_mem _ _ _ _ _ _ _ _ _ hr'
        have hi : strcmp i id < 0 := by rw [strcmp_swap]; omega
        rw [keys_node, List.pairwise_append, List.pairwise_cons]
        refine ⟨hl, ⟨?_, ihr _ _ _ _ hr hr'⟩, ?_⟩
        · intro b hb
          rcases (hm b).1 hb with rfl | hb
          · exact hi
          · exact hir b hb
        · intro a ha b hb
          rcases List.mem_cons.1 hb with rfl | hb
          · exact hlr a ha b (List.mem_cons_self _ _)
          · rcases (hm b).1 hb with rfl | hb
            · exact strcmp_trans _ _ _ (hlr a ha i (List.mem_cons_self _ _)) hi
            · exact hlr a ha b (List.mem_cons_of_mem _ hb)
      · rw [if_neg h1] at hok
        obtain ⟨⟨l', h', cs'⟩, hl', he⟩ := except_map_eq_ok _ _ _ hok
        simp only [Prod.mk.injEq] at he
        obtain ⟨rfl, rfl, rfl⟩ := he
        have hm := tadd_keys_mem _ _ _ _ _ _ _ _ _ hl'
        have hi : strcmp id i < 0 := by omega
        rw [keys_node, List.pairwise_append, List.pairwise_cons]
        refine ⟨ihl _ _ _ _ hl hl', ⟨hir, hr⟩, ?_⟩
        intro a ha b hb
        rcases (hm a).1 ha with rfl | ha
        · rcases List.mem_cons.1 hb with rfl | hb
          · exact hi
          · exact strcmp_trans _ _ _ hi (hir b hb)
        · exact hlr a ha b hb
    · rw [if_neg h0] at hok
      obtain ⟨cs', _, he⟩ := except_map_eq_ok _ _ _ hok
      simp only [Prod.mk.injEq] at he
      obtain ⟨rfl, rfl, rfl⟩ := he
      rw [keys_node, List.pairwise_append, List.pairwise_cons]
      exact ⟨hl, ⟨hir, hr⟩, hlr⟩

theorem pairwise_nodup (ks : List CStr) (h : ks.Pairwise (fun a b => strcmp a b < 0)) :
    ks.Nodup := by
  refine List.Pairwise.imp ?_ h
  intro a b hab e
  subst e
  rw [strcmp_self] at hab
  omega

/-- The node `tadd` leaves behind, the pointer it returns, and what a write
through the address of that node's `val` member does. -/
theorem tadd_spec_store (c : Cell) (t : TnodePtr) (id : CStr) (d : Descriptor) (f : Freer)
    (v : VoidPtr) (t' : TnodePtr) (h : VoidPtr) (cs : List Call)
    (hok : tadd c t id d f v = Except.ok (t', h, cs)) :
    ∃ path l r, t'.sub path = TnodePtr.node id d f v l r ∧
      h = taddReturn (c.walk path) d v ∧
      ∀ x, (t'.store path x).sub path = TnodePtr.node id d f x l r ∧
        tget c (t'.store path x) id = tgetReturn (c.walk path) d x := by
  induction t generalizing c t' h cs with
  | NULL =>
    simp only [tadd, Except.ok.injEq, Prod.mk.injEq] at hok
    obtain ⟨rfl, rfl, rfl⟩ := hok
    refine ⟨[], TnodePtr.NULL, TnodePtr.NULL, rfl, rfl, fun x => ⟨rfl, ?_⟩⟩
    exact tget_talloc c id d f x
  | node i d0 f0 v0 l r ihl ihr =>
    rw [tadd_node_eq] at hok
    by_cases h0 : strcmp id i ≠ 0
    · rw [if_pos h0] at hok
      by_cases h1 : strcmp id i > 0
      · rw [if_pos h1] at hok
        obtain ⟨⟨r', h', cs'⟩, hr, he⟩ := except_map_eq_ok _ _ _ hok
        simp only [Prod.mk.injEq] at he
        obtain ⟨rfl, rfl, rfl⟩ := he
        obtain ⟨path, a, b, hs, hh, hx⟩ := ihr (Cell.right c) r' h' cs' hr
        refine ⟨Dir.right :: path, a, b, ?_, ?_, fun x => ⟨?_, ?_⟩⟩
        · rw [sub_cons]; exact hs
        · rw [walk_cons]; exact hh
        · rw [TnodePtr.store, sub_cons]; exact (hx x).1
        · rw [TnodePtr.store, walk_cons, tget, if_pos h0, if_pos h1]; exact (hx x).2
      · rw [if_neg h1] at hok
        obtain ⟨⟨l', h', cs'⟩, hl, he⟩ := except_map_eq_ok _ _ _ hok
        simp only [Prod.mk.injEq] at he
        obtain ⟨rfl, rfl, rfl⟩ := he
        obtain ⟨path, a, b, hs, hh, hx⟩ := ihl (Cell.left c) l' h' cs' hl
        refine ⟨Dir.left :: path, a, b, ?_, ?_, fun x => ⟨?_, ?_⟩⟩
        · rw [sub_cons]; exact hs
        · rw [walk_cons]; exact hh
        · rw [TnodePtr.store, sub_cons]; exact (hx x).1
        · rw [TnodePtr.store, walk_cons, tget, if_pos h0, if_neg h1]; exact (hx x).2
    · rw [if_neg h0] at hok
      obtain ⟨cs', _, he⟩ := except_map_eq_ok _ _ _ hok
      simp only [Prod.mk.injEq] at he
      obtain ⟨rfl, rfl, rfl⟩ := he
      have hid : id = i := (strcmp_eq_zero_iff id i).1 (by simpa using h0)
      subst hid
      refine ⟨[], l, r, rfl, rfl, fun x => ⟨rfl, ?_⟩⟩
      rw [TnodePtr.store, TnodePtr.setVal, tget, if_neg h0]; rfl

theorem tget_absent (c : Cell) (t : TnodePtr) (id : CStr) (hn : id ∉ t.keys) :
    tget c t id = NULL := by
  induction t generalizing c with
  | NULL => rfl
  | node i d f v l r ihl ihr =>
    rw [keys_node] at hn
    simp only [List.mem_append, List.mem_cons, not_or] at hn
    obtain ⟨hl, hi, hr⟩ := hn
    have h0 : strcmp id i ≠ 0 := fun h => hi ((strcmp_eq_zero_iff id i).1 h)
    rw [tget, if_pos h0]
    by_cases h1 : strcmp id i > 0
    · rw [if_pos h1]; exact ihr _ hr
    · rw [if_neg h1]; exact ihl _ hl

/-- On a tree in ascending order the search of `tget` reaches every node: for
an entry of the tree it stops at the node holding it and returns the closing
switch there. -/
theorem tget_spec (c : Cell) (t : TnodePtr) (e : Entry)
    (hs : t.keys.Pairwise (fun a b => strcmp a b < 0)) (he : e ∈ t.entries) :
    ∃ path l r, t.sub path = TnodePtr.node e.1 e.2.1 e.2.2.1 e.2.2.2 l r ∧
      tget c t e.1 = tgetReturn (c.walk path) e.2.1 e.2.2.2 := by
  induction t generalizing c with
  | NULL => simp [TnodePtr.entries] at he
  | node i d f v l r ihl ihr =>
    rw [keys_node, List.pairwise_append, List.pairwise_cons] at hs
    obtain ⟨hl, ⟨hir, hr⟩, hlr⟩ := hs
    simp only [TnodePtr.entries, List.mem_append, List.mem_cons] at he
    rcases he with he | rfl | he
    · have hlt : strcmp e.1 i < 0 :=
        hlr e.1 (List.mem_map.2 ⟨e, he, rfl⟩) i (List.mem_cons_self _ _)
      obtain ⟨path, a, b, h1, h2⟩ := ihl (Cell.left c) hl he
      refine ⟨Dir.left :: path, a, b, by rw [sub_cons]; exact h1, ?_⟩
      rw [tget, if_pos (by omega), if_neg (by omega), walk_cons]; exact h2
    · refine ⟨[], l, r, rfl, ?_⟩
      rw [tget, if_neg (by simp [strcmp_self])]; rfl
    · have hlt : strcmp i e.1 < 0 := hir e.1 (List.mem_map.2 ⟨e, he, rfl⟩)
      have hgt : strcmp e.1 i > 0 := by rw [strcmp_swap]; omega
      obtain ⟨path, a, b, h1, h2⟩ := ihr (Cell.right c) hr he
      refine ⟨Dir.right :: path, a, b, by rw [sub_cons]; exact h1, ?_⟩
      rw [tget, if_pos (by omega), if_pos hgt, walk_cons]; exact h2

/-! ## Facts about `padd` and `pget` -/

/-- The bucket `padd` and `pget` select in a well laid out table. -/
theorem bucketIndex_wf (abi : Abi) (p : prototype) (id : CStr) (hw : p.wf) :
    bucketIndex abi p id = Except.ok (phash abi id % p.len.toNat) ∧
      phash abi id % p.len.toNat < p.nodes.length := by
  obtain ⟨hpos, hlen⟩ := hw
  have h1 : toULong abi p.len = p.len.toNat := by
    unfold toULong
    rw [if_pos (le_of_lt hpos)]
  have h2 : 0 < p.len.toNat := by omega
  constructor
  · unfold bucketIndex
    rw [h1, if_neg (by omega)]
  · rw [hlen]
    exact Nat.mod_lt _ h2

theorem getElem?_eq_getD (nodes : List TnodePtr) (i : Nat) (hi : i < nodes.length) :
    nodes[i]? = some (nodes.getD i TnodePtr.NULL) := by
  rw [List.getD_eq_getElem?_getD, List.getElem?_eq_getElem hi]
  rfl

theorem padd_wf_eq (abi : Abi) (p : prototype) (id : CStr) (d : Descriptor) (f : Freer)
    (v : VoidPtr) (hw : p.wf) :
    padd abi p id d f v =
      (tadd (Cell.bucket (phash abi id % p.len.toNat))
          (p.nodes.getD (phash abi id % p.len.toNat) TnodePtr.NULL) id d f v).map
        (fun x => ({ p with nodes := p.nodes.set (phash abi id % p.len.toNat) x.1 }, x.2.1, x.2.2)) := by
  obtain ⟨h1, h2⟩ := bucketIndex_wf abi p id hw
  unfold padd
  rw [h1]
  simp only [bind, Except.bind]
  rw [getElem?_eq_getD _ _ h2]
  simp only []
  cases tadd (Cell.bucket (phash abi id % p.len.toNat))
    (p.nodes.getD (phash abi id % p.len.toNat) TnodePtr.NULL) id d f v <;> rfl

theorem pget_wf_eq (abi : Abi) (p : prototype) (id : CStr) (hw : p.wf) :
    pget abi p id =
      Except.ok (tget (Cell.bucket (phash abi id % p.len.toNat))
          (p.nodes.getD (phash abi id % p.len.toNat) TnodePtr.NULL) id) := by
  obtain ⟨h1, h2⟩ := bucketIndex_wf abi p id hw
  unfold pget
  rw [h1]
  simp only [bind, Except.bind]
  rw [getElem?_eq_getD _ _ h2]
  rfl

/-- A completed `padd` in a well laid out table is a completed `tadd` on the
bucket of the identifier, stored back in that bucket. -/
theorem padd_ok_inv (abi : Abi) (p : prototype) (id : CStr) (d : Descriptor) (f : Freer)
    (v : VoidPtr) (hw : p.wf) (p' : prototype) (h : VoidPtr) (cs : List Call)
    (hok : padd abi p id d f v = Except.ok (p', h, cs)) :
    ∃ t', tadd (Cell.bucket (phash abi id % p.len.toNat))
          (p.nodes.getD (phash abi id % p.len.toNat) TnodePtr.NULL) id d f v
        = Except.ok (t', h, cs) ∧
      p' = { p with nodes := p.nodes.set (phash abi id % p.len.toNat) t' } := by
  rw [padd_wf_eq abi p id d f v hw] at hok
  obtain ⟨⟨t', h', cs'⟩, ht, he⟩ := except_map_eq_ok _ _ _ hok
  simp only [Prod.mk.injEq] at he
  obtain ⟨rfl, rfl, rfl⟩ := he
  exact ⟨t', ht, rfl⟩

theorem wf_set (p : prototype) (i : Nat) (t : TnodePtr) (hw : p.wf) :
    ({ p with nodes := p.nodes.set i t } : prototype).wf := by
  obtain ⟨h1, h2⟩ := hw
  exact ⟨h1, by simp [h2]⟩

theorem deref_walk (p : prototype) (c : Cell) (path : List Dir) :
    p.deref (c.walk path) = (p.deref c).sub path := by
  induction path generalizing c with
  | nil => rfl
  | cons s path ih =>
    rw [walk_cons, sub_cons, ih]
    cases s <;> rfl

theorem getD_set_self (nodes : List TnodePtr) (i : Nat) (t : TnodePtr) (hi : i < nodes.length) :
    (nodes.set i t).getD i TnodePtr.NULL = t := by
  simp [List.getD_eq_getElem?_getD, hi]

theorem hasFreers_getD (p : prototype) (i : Nat) (hf : p.hasFreers = true) :
    (p.nodes.getD i TnodePtr.NULL).hasFreers = true := by
  rw [List.getD_eq_getElem?_getD]
  cases hi : p.nodes[i]? with
  | none => rfl
  | some t =>
    simp only [Option.getD_some]
    unfold prototype.hasFreers at hf
    rw [List.all_eq_true] at hf
    exact hf t (List.getElem?_mem hi)

/-- `padd` returns whenever the table is well laid out and every owned node has a
destructor. -/
theorem padd_ok_of_hasFreers (abi : Abi) (p : prototype) (id : CStr) (d : Descriptor)
    (f : Freer) (v : VoidPtr) (hw : p.wf) (hf : p.hasFreers = true) :
    ∃ p' h cs, padd abi p id d f v = Except.ok (p', h, cs) := by
  rw [padd_wf_eq abi p id d f v hw]
  obtain ⟨t', h, cs, e⟩ := tadd_ok_of_hasFreers (Cell.bucket (phash abi id % p.len.toNat))
    (p.nodes.getD (phash abi id % p.len.toNat) TnodePtr.NULL) id d f v
    (hasFreers_getD p _ hf)
  rw [e]
  exact ⟨_, _, _, rfl⟩

/-- After a completed `padd` the table holds a node with exactly the arguments;
the returned pointer and a following `pget` are the closing switches of `tadd`
and `tget` at that node. -/
theorem padd_spec (abi : Abi) (p : prototype) (id : CStr) (d : Descriptor) (f : Freer)
    (v : VoidPtr) (hw : p.wf) (p' : prototype) (h : VoidPtr) (cs : List Call)
    (hok : padd abi p id d f v = Except.ok (p', h, cs)) :
    ∃ c l r, p'.deref c = TnodePtr.node id d f v l r ∧
      h = taddReturn c d v ∧ pget abi p' id = Except.ok (tgetReturn c d v) := by
  obtain ⟨t', ht, hp⟩ := padd_ok_inv abi p id d f v hw p' h cs hok
  obtain ⟨_, hi⟩ := bucketIndex_wf abi p id hw
  obtain ⟨path, l, r, hs, hh, hg⟩ := tadd_spec _ _ _ _ _ _ _ _ _ ht
  have hw' : p'.wf := by rw [hp]; exact wf_set p _ t' hw
  have hlen : p'.len = p.len := by rw [hp]
  have hget : p'.nodes.getD (phash abi id % p.len.toNat) TnodePtr.NULL = t' := by
    rw [hp]; exact getD_set_self _ _ _ hi
  refine ⟨(Cell.bucket (phash abi id % p.len.toNat)).walk path, l, r, ?_, hh, ?_⟩
  · rw [deref_walk]
    show (p'.nodes.getD _ TnodePtr.NULL).sub path = _
    rw [hget, hs]
  · rw [pget_wf_eq abi p' id hw', hlen, hget, hg]

theorem inv_palloc (abi : Abi) (len : Int) (hlen : 0 < len) : (palloc len).Inv abi := by
  refine ⟨⟨hlen, by simp [palloc]⟩, ?_⟩
  intro i t ht
  have hm : t ∈ List.replicate len.toNat TnodePtr.NULL := List.getElem?_mem ht
  rw [List.mem_replicate] at hm
  rw [hm.2]
  exact ⟨List.chain'_nil, fun k hk => by simp [TnodePtr.keys, TnodePtr.entries] at hk⟩

theorem inv_padd (abi : Abi) (p : prototype) (id : CStr) (d : Descriptor) (f : Freer)
    (v : VoidPtr) (hi : p.Inv abi) (p' : prototype) (h : VoidPtr) (cs : List Call)
    (hok : padd abi p id d f v = Except.ok (p', h, cs)) : p'.Inv abi := by
  obtain ⟨hw, hb⟩ := hi
  obtain ⟨t', ht, hp⟩ := padd_ok_inv abi p id d f v hw p' h cs hok
  obtain ⟨_, hlt⟩ := bucketIndex_wf abi p id hw
  subst hp
  refine ⟨wf_set p _ t' hw, ?_⟩
  intro j t hj
  simp only [] at hj ⊢
  by_cases e : phash abi id % p.len.toNat = j
  · subst e
    rw [List.getElem?_set_self hlt] at hj
    cases hj
    obtain ⟨ha, hk⟩ := hb _ _ (getElem?_eq_getD _ _ hlt)
    refine ⟨(ascending_iff_pairwise _).2
      (tadd_pairwise _ _ _ _ _ _ _ _ _ ((ascending_iff_pairwise _).1 ha) ht), ?_⟩
    intro k hk'
    rcases (tadd_keys_mem _ _ _ _ _ _ _ _ _ ht k).1 hk' with rfl | hk'
    · rfl
    · exact hk k hk'
  · rw [List.getElem?_set_ne e] at hj
    exact hb j t hj

theorem padd_len (abi : Abi) (p : prototype) (id : CStr) (d : Descriptor) (f : Freer)
    (v : VoidPtr) (hw : p.wf) (p' : prototype) (h : VoidPtr) (cs : List Call)
    (hok : padd abi p id d f v = Except.ok (p', h, cs)) :
    p'.len = p.len ∧ p'.freed = p.freed ∧ p'.nodes.length = p.nodes.length := by
  obtain ⟨t', _, hp⟩ := padd_ok_inv abi p id d f v hw p' h cs hok
  subst hp
  exact ⟨rfl, rfl, by simp⟩

theorem padds_cons_ok (abi : Abi) (p : prototype) (op : Insert) (ops : List Insert)
    (p' : prototype) (tr : List Call)
    (hok : padds abi p (op :: ops) = Except.ok (p', tr)) :
    ∃ p1 h1 c1 c2, padd abi p op.identifier op.descriptor op.freer op.val
        = Except.ok (p1, h1, c1) ∧
      padds abi p1 ops = Except.ok (p', c2) ∧ tr = c1 ++ c2 := by
  rw [padds] at hok
  cases h1 : padd abi p op.identifier op.descriptor op.freer op.val with
  | error e => rw [h1] at hok; simp [bind, Except.bind] at hok
  | ok r1 =>
    obtain ⟨p1, h, c1⟩ := r1
    rw [h1] at hok
    simp only [bind, Except.bind] at hok
    cases h2 : padds abi p1 ops with
    | error e => rw [h2] at hok; simp at hok
    | ok r2 =>
      obtain ⟨p2, c2⟩ := r2
      rw [h2] at hok
      simp only [pure, Except.pure, Except.ok.injEq, Prod.mk.injEq] at hok
      obtain ⟨rfl, rfl⟩ := hok
      exact ⟨p1, h, c1, c2, rfl, h2, rfl⟩

theorem inv_padds (abi : Abi) (p : prototype) (ops : List Insert) (hi : p.Inv abi)
    (p' : prototype) (tr : List Call) (hok : padds abi p ops = Except.ok (p', tr)) :
    p'.Inv abi ∧ p'.len = p.len := by
  induction ops generalizing p tr with
  | nil =>
    simp only [padds, Except.ok.injEq, Prod.mk.injEq] at hok
    obtain ⟨rfl, _⟩ := hok
    exact ⟨hi, rfl⟩
  | cons op ops ih =>
    obtain ⟨p1, h1, c1, c2, e1, e2, _⟩ := padds_cons_ok abi p op ops p' tr hok
    obtain ⟨a, b⟩ := ih p1 (inv_padd abi p _ _ _ _ hi p1 h1 c1 e1) c2 e2
    exact ⟨a, by rw [b, (padd_len abi p _ _ _ _ hi.1 p1 h1 c1 e1).1]⟩

/-- In a table that satisfies the invariant no identifier is held by two nodes. -/
theorem inv_nodup (abi : Abi) (p : prototype) (hi : p.Inv abi) :
    (p.entries.map Prod.fst).Nodup := by
  obtain ⟨_, hb⟩ := hi
  have hk : p.entries.map Prod.fst = (p.nodes.map TnodePtr.keys).flatten := by
    simp only [prototype.entries, List.map_flatten, List.map_map]
    rfl
  rw [hk, List.nodup_flatten]
  constructor
  · intro ks hks
    obtain ⟨t, ht, rfl⟩ := List.mem_map.1 hks
    obtain ⟨i, hi⟩ := List.mem_iff_getElem?.1 ht
    exact pairwise_nodup _ ((ascending_iff_pairwise _).1 (hb i t hi).1)
  · rw [List.pairwise_map, List.pairwise_iff_getElem]
    intro i j hi hj hij k hki hkj
    have h1 := (hb i _ (List.getElem?_eq_getElem hi)).2 k hki
    have h2 := (hb j _ (List.getElem?_eq_getElem hj)).2 k hkj
    omega

/-- `tadd` either returns or stops at the node holding the identifier, an owned
node whose destructor is null. -/
theorem tadd_total (c : Cell) (t : TnodePtr) (id : CStr) (d : Descriptor) (f : Freer)
    (v : VoidPtr) :
    (∃ t' h cs, tadd c t id d f v = Except.ok (t', h, cs)) ∨
      (tadd c t id d f v = Except.error Fault.nullCall ∧
        ∃ e ∈ t.entries, e.1 = id ∧ Entry.hasFreer e = false) := by
  induction t generalizing c with
  | NULL => exact Or.inl ⟨_, _, _, rfl⟩
  | node i d0 f0 v0 l r ihl ihr =>
    rw [tadd_node_eq]
    by_cases h0 : strcmp id i ≠ 0
    · rw [if_pos h0]
      by_cases h1 : strcmp id i > 0
      · rw [if_pos h1]
        rcases ihr (Cell.right c) with ⟨t', h, cs, e⟩ | ⟨e, x, hx, hx1, hx2⟩
        · exact Or.inl ⟨_, _, _, by rw [e]; rfl⟩
        · exact Or.inr ⟨by rw [e]; rfl, x, by simp [TnodePtr.entries, hx], hx1, hx2⟩
      · rw [if_neg h1]
        rcases ihl (Cell.left c) with ⟨t', h, cs, e⟩ | ⟨e, x, hx, hx1, hx2⟩
        · exact Or.inl ⟨_, _, _, by rw [e]; rfl⟩
        · exact Or.inr ⟨by rw [e]; rfl, x, by simp [TnodePtr.entries, hx], hx1, hx2⟩
    · rw [if_neg h0, tfreeval_node]
      have hid : id = i := (strcmp_eq_zero_iff id i).1 (by simpa using h0)
      subst hid
      by_cases he : Entry.hasFreer (id, d0, f0, v0) = true
      · rw [if_pos he]
        exact Or.inl ⟨_, _, _, rfl⟩
      · rw [if_neg he]
        exact Or.inr ⟨rfl, (id, d0, f0, v0), by simp [TnodePtr.entries], rfl, by simpa using he⟩

theorem flatten_map_set {β : Type} (g : TnodePtr → List β) (nodes : List TnodePtr) (i : Nat)
    (t' : TnodePtr) (hi : i < nodes.length) :
    ∃ X Y, (nodes.map g).flatten = X ++ g (nodes.getD i TnodePtr.NULL) ++ Y ∧
      ((nodes.set i t').map g).flatten = X ++ g t' ++ Y := by
  induction nodes generalizing i with
  | nil => simp at hi
  | cons a nodes ih =>
    cases i with
    | zero => exact ⟨[], (nodes.map g).flatten, by simp, by simp⟩
    | succ i =>
      obtain ⟨X, Y, h1, h2⟩ := ih i (by simpa using hi)
      refine ⟨g a ++ X, Y, ?_, ?_⟩
      · simp only [List.map_cons, List.flatten_cons, List.getD_cons_succ, h1, List.append_assoc]
      · simp only [List.set_cons_succ, List.map_cons, List.flatten_cons, h2, List.append_assoc]

/-- The contents of the table before and after a completed `padd`: the new
entry is spliced in and nothing is released, or it replaces the entry with the
same identifier, whose value is released. -/
theorem padd_entries (abi : Abi) (p : prototype) (id : CStr) (d : Descriptor) (f : Freer)
    (v : VoidPtr) (hw : p.wf) (p' : prototype) (h : VoidPtr) (cs : List Call)
    (hok : padd abi p id d f v = Except.ok (p', h, cs)) :
    ∃ X Y, p'.entries = X ++ (id, d, f, v) :: Y ∧
      ((p.entries = X ++ Y ∧ cs = []) ∨
        ∃ e : Entry, e.1 = id ∧ p.entries = X ++ e :: Y ∧ e.hasFreer = true ∧
          cs = e.release.toList) := by
  obtain ⟨t', ht, hp⟩ := padd_ok_inv abi p id d f v hw p' h cs hok
  obtain ⟨_, hlt⟩ := bucketIndex_wf abi p id hw
  obtain ⟨X, Y, h1, h2⟩ := flatten_map_set TnodePtr.entries p.nodes _ t' hlt
  obtain ⟨A, B, hA, hB⟩ := tadd_entries _ _ _ _ _ _ _ _ _ ht
  subst hp
  refine ⟨X ++ A, B ++ Y, ?_, ?_⟩
  · show ((p.nodes.set _ t').map TnodePtr.entries).flatten = _
    rw [h2, hA]; simp
  · rcases hB with ⟨e1, e2⟩ | ⟨e, e1, e2, e3, e4⟩
    · refine Or.inl ⟨?_, e2⟩
      show (p.nodes.map TnodePtr.entries).flatten = _
      rw [h1, e1]; simp
    · refine Or.inr ⟨e, e1, ?_, e3, e4⟩
      show (p.nodes.map TnodePtr.entries).flatten = _
      rw [h1, e2]; simp

theorem mem_entries_getD (abi : Abi) (p : prototype) (hi : p.Inv abi) (e : Entry)
    (he : e ∈ p.entries) :
    e ∈ (p.nodes.getD (phash abi e.1 % p.len.toNat) TnodePtr.NULL).entries := by
  unfold prototype.entries at he
  rw [List.mem_flatten] at he
  obtain ⟨es, hes, hmem⟩ := he
  obtain ⟨t, ht, rfl⟩ := List.mem_map.1 hes
  obtain ⟨j, hj⟩ := List.mem_iff_getElem?.1 ht
  have hk : e.1 ∈ t.keys := List.mem_map.2 ⟨e, hmem, rfl⟩
  have := (hi.2 j t hj).2 e.1 hk
  rw [this, List.getD_eq_getElem?_getD, hj]
  exact hmem

theorem nodup_keys_unique (es : List Entry) (hn : (es.map Prod.fst).Nodup) (a b : Entry)
    (ha : a ∈ es) (hb : b ∈ es) (hab : a.1 = b.1) : a = b :=
  List.inj_on_of_nodup_map hn ha hb hab

theorem filter_key_eq_singleton (es : List Entry) (hn : (es.map Prod.fst).Nodup) (e : Entry)
    (he : e ∈ es) : es.filter (fun x => decide (x.1 = e.1)) = [e] := by
  induction es with
  | nil => simp at he
  | cons a es ih =>
    rw [List.map_cons, List.nodup_cons] at hn
    obtain ⟨hna, hn⟩ := hn
    rcases List.mem_cons.1 he with rfl | he
    · rw [List.filter_cons_of_pos (by simp)]
      congr 1
      rw [List.filter_eq_nil_iff]
      intro x hx hx1
      exact hna (List.mem_map.2 ⟨x, hx, by simpa using hx1⟩)
    · have hne : ¬ a.1 = e.1 := fun h => hna (List.mem_map.2 ⟨e, he, h.symm⟩)
      rw [List.filter_cons_of_neg (by simpa using hne)]
      exact ih hn he

theorem hasFreers_eq_all (p : prototype) : p.hasFreers = p.entries.all Entry.hasFreer := by
  unfold prototype.hasFreers prototype.entries
  induction p.nodes with
  | nil => rfl
  | cons t ts ih =>
    simp only [List.all_cons, List.map_cons, List.flatten_cons, List.all_append, ih]
    rfl

theorem padd_hasFreers (abi : Abi) (p : prototype) (id : CStr) (d : Descriptor) (f : Freer)
    (v : VoidPtr) (hw : p.wf) (hf : p.hasFreers = true)
    (hn : Entry.hasFreer (id, d, f, v) = true) (p' : prototype) (h : VoidPtr)
    (cs : List Call) (hok : padd abi p id d f v = Except.ok (p', h, cs)) :
    p'.hasFreers = true := by
  obtain ⟨X, Y, h1, h2⟩ := padd_entries abi p id d f v hw p' h cs hok
  rw [hasFreers_eq_all] at hf ⊢
  rw [h1]
  rcases h2 with ⟨e1, _⟩ | ⟨e, _, e2, _, _⟩
  · rw [e1] at hf
    simp only [List.all_append, List.all_cons, Bool.and_eq_true] at hf ⊢
    exact ⟨hf.1, hn, hf.2⟩
  · rw [e2] at hf
    simp only [List.all_append, List.all_cons, Bool.and_eq_true] at hf ⊢
    exact ⟨hf.1, hn, hf.2.2⟩

theorem hasFreers_palloc (len : Int) : (palloc len).hasFreers = true := by
  simp [prototype.hasFreers, palloc, TnodePtr.hasFreers, TnodePtr.entries]

/-- A sequence of inserts in which every owned value comes with a destructor
runs to its end, from a well laid out table whose owned nodes have destructors. -/
theorem padds_ok (abi : Abi) (p : prototype) (ops : List Insert) (hw : p.wf)
    (hf : p.hasFreers = true)
    (hops : ∀ op ∈ ops, op.descriptor.owned = true → op.freer ≠ none) :
    ∃ p' tr, padds abi p ops = Except.ok (p', tr) ∧ p'.hasFreers = true := by
  induction ops generalizing p with
  | nil => exact ⟨p, [], rfl, hf⟩
  | cons op ops ih =>
    obtain ⟨p1, h1, c1, e1⟩ :=
      padd_ok_of_hasFreers abi p op.identifier op.descriptor op.freer op.val hw hf
    have hn : Entry.hasFreer (op.identifier, op.descriptor, op.freer, op.val) = true := by
      have := hops op (List.mem_cons_self _ _)
      unfold Entry.hasFreer
      cases ho : op.descriptor.owned with
      | false => rfl
      | true =>
        have := this ho
        cases hfr : op.freer with
        | none => exact absurd hfr this
        | some g => simp [hfr]
    have hw1 : p1.wf := by
      obtain ⟨a, _, b⟩ := padd_len abi p _ _ _ _ hw p1 h1 c1 e1
      exact ⟨by rw [a]; exact hw.1, by rw [b, a]; exact hw.2⟩
    obtain ⟨p2, c2, e2, hf2⟩ := ih p1 hw1
      (padd_hasFreers abi p _ _ _ _ hw hf hn p1 h1 c1 e1)
      (fun o ho => hops o (List.mem_cons_of_mem _ ho))
    refine ⟨p2, c1 ++ c2, ?_, hf2⟩
    rw [padds, e1]
    simp only [bind, Except.bind]
    rw [e2]
    rfl

/-- On a tree in ascending order, `tadd` of an identifier held by a releasable
node returns after exactly the release of that node. -/
theorem tadd_present (c : Cell) (t : TnodePtr) (e : Entry) (d : Descriptor) (f : Freer)
    (v : VoidPtr) (hs : t.keys.Pairwise (fun a b => strcmp a b < 0)) (he : e ∈ t.entries)
    (hf : e.hasFreer = true) :
    ∃ t' h, tadd c t e.1 d f v = Except.ok (t', h, e.release.toList) := by
  have hn := pairwise_nodup _ hs
  rcases tadd_total c t e.1 d f v with ⟨t', h, cs, hok⟩ | ⟨_, x, hx, hx1, hx2⟩
  · obtain ⟨A, B, hA, hB⟩ := tadd_entries _ _ _ _ _ _ _ _ _ hok
    rcases hB with ⟨e1, _⟩ | ⟨x, hx1, hx2, _, hx4⟩
    · exfalso
      have hn' := pairwise_nodup _ (tadd_pairwise _ _ _ _ _ _ _ _ _ hs hok)
      have hmem : e.1 ∈ A.map Prod.fst ++ B.map Prod.fst := by
        rw [← List.map_append, ← e1]
        exact List.mem_map.2 ⟨e, he, rfl⟩
      simp only [TnodePtr.keys, hA, List.map_append, List.map_cons] at hn'
      rw [List.nodup_append] at hn'
      obtain ⟨_, hb, hdis⟩ := hn'
      rcases List.mem_append.1 hmem with hm | hm
      · exact hdis hm (List.mem_cons_self _ _)
      · exact (List.nodup_cons.1 hb).1 hm
    · have : x = e := nodup_keys_unique _ hn x e (by rw [hx2]; simp) he hx1
      subst this
      exact ⟨t', h, by rw [hok, hx4]⟩
  · have : x = e := nodup_keys_unique _ hn x e hx he hx1
    subst this
    rw [hf] at hx2
    cases hx2

/-- `tadd` of an identifier the tree does not hold returns without any release. -/
theorem tadd_absent (c : Cell) (t : TnodePtr) (id : CStr) (d : Descriptor) (f : Freer)
    (v : VoidPtr) (hn : id ∉ t.keys) :
    ∃ t' h, tadd c t id d f v = Except.ok (t', h, []) := by
  rcases tadd_total c t id d f v with ⟨t', h, cs, hok⟩ | ⟨_, x, hx, hx1, _⟩
  · obtain ⟨A, B, _, hB⟩ := tadd_entries _ _ _ _ _ _ _ _ _ hok
    rcases hB with ⟨_, e2⟩ | ⟨x, hx1, hx2, _, _⟩
    · exact ⟨t', h, by rw [hok, e2]⟩
    · exfalso
      apply hn
      rw [TnodePtr.keys, hx2]
      exact List.mem_map.2 ⟨x, by simp, hx1⟩
  · exact absurd (List.mem_map.2 ⟨x, hx, hx1⟩) hn

theorem inv_getD (abi : Abi) (p : prototype) (hi : p.Inv abi) (id : CStr) :
    (p.nodes.getD (phash abi id % p.len.toNat) TnodePtr.NULL).keys.Pairwise
      (fun a b => strcmp a b < 0) := by
  obtain ⟨_, hlt⟩ := bucketIndex_wf abi p id hi.1
  exact (ascending_iff_pairwise _).1 (hi.2 _ _ (getElem?_eq_getD _ _ hlt)).1

/-- In a table that satisfies the invariant, `padd` of an identifier held by a
releasable node returns after exactly the release of that node. -/
theorem padd_present (abi : Abi) (p : prototype) (e : Entry) (d : Descriptor) (f : Freer)
    (v : VoidPtr) (hi : p.Inv abi) (he : e ∈ p.entries) (hf : e.hasFreer = true) :
    ∃ p' h, padd abi p e.1 d f v = Except.ok (p', h, e.release.toList) := by
  rw [padd_wf_eq abi p e.1 d f v hi.1]
  obtain ⟨t', h, e1⟩ := tadd_present (Cell.bucket (phash abi e.1 % p.len.toNat)) _ e d f v
    (inv_getD abi p hi e.1) (mem_entries_getD abi p hi e he) hf
  rw [e1]
  exact ⟨_, _, rfl⟩

/-- After a completed `padd` on a table that satisfies the invariant, the nodes
with the identifier are exactly one, holding the arguments. -/
theorem padd_filter (abi : Abi) (p : prototype) (id : CStr) (d : Descriptor) (f : Freer)
    (v : VoidPtr) (hi : p.Inv abi) (p' : prototype) (h : VoidPtr) (cs : List Call)
    (hok : padd abi p id d f v = Except.ok (p', h, cs)) :
    p'.entries.filter (fun x => decide (x.1 = id)) = [(id, d, f, v)] := by
  obtain ⟨X, Y, h1, _⟩ := padd_entries abi p id d f v hi.1 p' h cs hok
  exact filter_key_eq_singleton p'.entries
    (inv_nodup abi p' (inv_padd abi p id d f v hi p' h cs hok)) (id, d, f, v)
    (by rw [h1]; simp)

theorem owed_append (a b : List Entry) : owed (a ++ b) = owed a ++ owed b := by
  simp [owed, List.filterMap_append]

theorem owed_cons (e : Entry) (es : List Entry) : owed (e :: es) = e.release.toList ++ owed es := by
  unfold owed
  rw [List.filterMap_cons]
  cases e.release <;> rfl

theorem preorder_perm (t : TnodePtr) : t.preorder.Perm t.entries := by
  induction t with
  | NULL => exact List.Perm.refl _
  | node i d f v l r ihl ihr =>
    simp only [TnodePtr.preorder, TnodePtr.entries]
    exact (List.Perm.cons _ (List.Perm.append ihl ihr)).trans List.perm_middle.symm

theorem hasFreers_preorder (t : TnodePtr) :
    t.hasFreers = t.preorder.all Entry.hasFreer := by
  unfold TnodePtr.hasFreers
  rw [Bool.eq_iff_iff, List.all_eq_true, List.all_eq_true]
  constructor
  · intro h x hx
    exact h x ((preorder_perm t).mem_iff.1 hx)
  · intro h x hx
    exact h x ((preorder_perm t).mem_iff.2 hx)

/-- `tfree` visits the tree in pre-order and makes the calls owed for its nodes,
provided every owned node has a destructor. -/
theorem tfree_eq (t : TnodePtr) (hf : t.hasFreers = true) :
    tfree t = Except.ok (owed t.preorder) := by
  induction t with
  | NULL => rfl
  | node i d f v l r ihl ihr =>
    rw [hasFreers_node] at hf
    simp only [Bool.and_eq_true] at hf
    obtain ⟨hl, he, hr⟩ := hf
    rw [tfree, tfreeval_node, if_pos he, ihl hl, ihr hr]
    simp only [bind, Except.bind, pure, Except.pure, TnodePtr.preorder, owed_cons, owed_append,
      List.append_assoc]

theorem tfreeEach_eq (nodes : List TnodePtr) (is : List Nat)
    (hf : ∀ t ∈ nodes, t.hasFreers = true) (hi : ∀ i ∈ is, i < nodes.length) :
    tfreeEach nodes is =
      Except.ok (is.map (fun i => owed (nodes.getD i TnodePtr.NULL).preorder)).flatten := by
  induction is with
  | nil => rfl
  | cons i is ih =>
    have hlt := hi i (List.mem_cons_self _ _)
    have hg := getElem?_eq_getD nodes i hlt
    rw [tfreeEach, hg]
    simp only []
    rw [tfree_eq _ (hf _ (List.getElem?_mem hg)), ih (fun j hj => hi j (List.mem_cons_of_mem _ hj))]
    rfl

theorem map_getD_range (nodes : List TnodePtr) :
    (List.range nodes.length).map (fun i => nodes.getD i TnodePtr.NULL) = nodes := by
  apply List.ext_getElem
  · simp
  · intro i h1 h2
    simp [List.getD_eq_getElem?_getD, h2]

theorem flatten_perm {α β : Type} (g1 g2 : α → List β) (l : List α)
    (h : ∀ a ∈ l, (g1 a).Perm (g2 a)) : (l.map g1).flatten.Perm (l.map g2).flatten := by
  induction l with
  | nil => exact List.Perm.refl _
  | cons a l ih =>
    simp only [List.map_cons, List.flatten_cons]
    exact List.Perm.append (h a (List.mem_cons_self _ _))
      (ih (fun b hb => h b (List.mem_cons_of_mem _ hb)))

theorem owed_flatten (L : List (List Entry)) : owed L.flatten = (L.map owed).flatten := by
  unfold owed
  rw [List.filterMap_flatten]

/-- The first `pfree` of a live, not yet freed, well laid out table whose owned
nodes have destructors releases the table and makes the calls owed for its
nodes. -/
theorem pfree_live (p : prototype) (hw : p.wf) (hfr : p.freed = false)
    (hf : p.hasFreers = true) :
    ∃ cs, pfree (ProtoPtr.live p) = Except.ok (ProtoPtr.released, cs) ∧
      cs.Perm (owed p.entries) := by
  have hall : ∀ t ∈ p.nodes, t.hasFreers = true := by
    unfold prototype.hasFreers at hf
    exact List.all_eq_true.1 hf
  have he := tfreeEach_eq p.nodes (List.range p.len.toNat) hall
    (fun i hi => by rw [hw.2]; exact List.mem_range.1 hi)
  refine ⟨((List.range p.len.toNat).map
    (fun i => owed (p.nodes.getD i TnodePtr.NULL).preorder)).flatten, ?_, ?_⟩
  · rw [pfree, if_neg (by simp [hfr]), he]
    rfl
  · rw [← hw.2]
    have h1 : (List.range p.nodes.length).map
        (fun i => owed (p.nodes.getD i TnodePtr.NULL).preorder) =
        p.nodes.map (fun t => owed t.preorder) := by
      conv => rhs; rw [← map_getD_range p.nodes]
      rw [List.map_map]
      rfl
    rw [h1, prototype.entries, owed_flatten, List.map_map]
    apply flatten_perm
    intro t _
    exact (preorder_perm t).filterMap _

/-- One completed `padd`: the calls it makes together with the calls owed
afterwards are the calls owed before together with the call owed for the new
node. -/
theorem padd_owed (abi : Abi) (p : prototype) (id : CStr) (d : Descriptor) (f : Freer)
    (v : VoidPtr) (hw : p.wf) (p' : prototype) (h : VoidPtr) (cs : List Call)
    (hok : padd abi p id d f v = Except.ok (p', h, cs)) :
    (cs ++ owed p'.entries).Perm (owed p.entries ++ owed [(id, d, f, v)]) := by
  obtain ⟨X, Y, h1, h2⟩ := padd_entries abi p id d f v hw p' h cs hok
  rw [h1]
  rcases h2 with ⟨e1, e2⟩ | ⟨e, _, e2, _, e4⟩
  · rw [e1, e2, owed_append, owed_append, owed_cons, owed_cons]
    simp only [List.nil_append, owed, List.filterMap_nil, List.append_nil]
    rw [List.append_assoc]
    exact List.Perm.append_left _ List.perm_append_comm
  · rw [e2, e4, owed_append, owed_append, owed_cons, owed_cons, owed_cons]
    simp only [owed, List.filterMap_nil, List.append_nil]
    generalize List.filterMap Entry.release X = a
    generalize List.filterMap Entry.release Y = b
    generalize (Entry.release e).toList = c
    generalize (Entry.release (id, d, f, v)).toList = n
    have : (c ++ (a ++ (n ++ b))).Perm (a ++ (c ++ b) ++ n) := by
      rw [List.perm_iff_count]
      intro x
      simp only [List.count_append]
      omega
    exact this

theorem padds_owed (abi : Abi) (p : prototype) (ops : List Insert) (hw : p.wf)
    (p' : prototype) (tr : List Call) (hok : padds abi p ops = Except.ok (p', tr)) :
    (tr ++ owed p'.entries).Perm (owed p.entries ++ owed (ops.map Insert.entry)) ∧
      p'.wf ∧ p'.freed = p.freed := by
  induction ops generalizing p tr with
  | nil =>
    simp only [padds, Except.ok.injEq, Prod.mk.injEq] at hok
    obtain ⟨rfl, rfl⟩ := hok
    simp [owed, hw]
  | cons op ops ih =>
    obtain ⟨p1, h1, c1, c2, e1, e2, rfl⟩ := padds_cons_ok abi p op ops p' tr hok
    obtain ⟨a, a', b⟩ := padd_len abi p _ _ _ _ hw p1 h1 c1 e1
    have hw1 : p1.wf := ⟨by rw [a]; exact hw.1, by rw [b, a]; exact hw.2⟩
    obtain ⟨hp, hw2, hfr⟩ := ih p1 hw1 c2 e2
    refine ⟨?_, hw2, by rw [hfr, a']⟩
    have hq := padd_owed abi p _ _ _ _ hw p1 h1 c1 e1
    rw [List.map_cons, owed_cons]
    have hq' : (c1 ++ owed p1.entries).Perm (owed p.entries ++ (Insert.entry op).release.toList) := by
      simpa [owed_cons, owed, Insert.entry] using hq
    rw [List.append_assoc]
    refine (List.Perm.append_left c1 hp).trans ?_
    rw [← List.append_assoc, ← List.append_assoc]
    exact List.Perm.append_right _ hq'

theorem padds_keys (abi : Abi) (p : prototype) (ops : List Insert) (hw : p.wf)
    (p' : prototype) (tr : List Call) (hok : padds abi p ops = Except.ok (p', tr)) :
    ∀ k ∈ p'.entries.map Prod.fst,
      k ∈ p.entries.map Prod.fst ∨ k ∈ ops.map Insert.identifier := by
  induction ops generalizing p tr with
  | nil =>
    simp only [padds, Except.ok.injEq, Prod.mk.injEq] at hok
    obtain ⟨rfl, _⟩ := hok
    exact fun k hk => Or.inl hk
  | cons op ops ih =>
    obtain ⟨p1, h1, c1, c2, e1, e2, _⟩ := padds_cons_ok abi p op ops p' tr hok
    obtain ⟨a, _, b⟩ := padd_len abi p _ _ _ _ hw p1 h1 c1 e1
    have hw1 : p1.wf := ⟨by rw [a]; exact hw.1, by rw [b, a]; exact hw.2⟩
    obtain ⟨X, Y, hX, hY⟩ := padd_entries abi p _ _ _ _ hw p1 h1 c1 e1
    intro k hk
    rcases ih p1 hw1 c2 e2 k hk with hk1 | hk1
    · rw [hX] at hk1
      simp only [List.map_append, List.map_cons, List.mem_append, List.mem_cons] at hk1
      rcases hY with ⟨e, _⟩ | ⟨x, _, e, _, _⟩
      · rw [e]
        simp only [List.map_append, List.mem_append, List.map_cons, List.mem_cons]
        tauto
      · rw [e]
        simp only [List.map_append, List.mem_append, List.map_cons, List.mem_cons]
        tauto
    · exact Or.inr (List.mem_cons_of_mem _ hk1)

theorem pget_absent (abi : Abi) (p : prototype) (id : CStr) (hw : p.wf)
    (hn : id ∉ p.entries.map Prod.fst) : pget abi p id = Except.ok NULL := by
  obtain ⟨_, hlt⟩ := bucketIndex_wf abi p id hw
  rw [pget_wf_eq abi p id hw, tget_absent]
  intro hk
  apply hn
  obtain ⟨e, he, rfl⟩ := List.mem_map.1 hk
  refine List.mem_map.2 ⟨e, ?_, rfl⟩
  unfold prototype.entries
  rw [List.mem_flatten]
  exact ⟨_, List.mem_map.2 ⟨_, List.getElem?_mem (getElem?_eq_getD _ _ hlt), rfl⟩, he⟩

theorem entries_palloc (len : Int) : (palloc len).entries = [] := by
  simp [prototype.entries, palloc, TnodePtr.entries]

theorem padd_keys_mono (abi : Abi) (p : prototype) (id : CStr) (d : Descriptor) (f : Freer)
    (v : VoidPtr) (hw : p.wf) (p' : prototype) (h : VoidPtr) (cs : List Call)
    (hok : padd abi p id d f v = Except.ok (p', h, cs)) :
    id ∈ p'.entries.map Prod.fst ∧
      ∀ k ∈ p.entries.map Prod.fst, k ∈ p'.entries.map Prod.fst := by
  obtain ⟨X, Y, hX, hY⟩ := padd_entries abi p id d f v hw p' h cs hok
  rw [hX]
  constructor
  · simp
  · intro k hk
    rcases hY with ⟨e, _⟩ | ⟨x, hx, e, _, _⟩
    · rw [e] at hk
      simp only [List.map_append, List.mem_append, List.map_cons, List.mem_cons] at hk ⊢
      tauto
    · rw [e] at hk
      simp only [List.map_append, List.mem_append, List.map_cons, List.mem_cons, hx] at hk ⊢
      tauto

theorem padds_keys_mono (abi : Abi) (p : prototype) (ops : List Insert) (hw : p.wf)
    (p' : prototype) (tr : List Call) (hok : padds abi p ops = Except.ok (p', tr)) :
    (∀ k ∈ p.entries.map Prod.fst, k ∈ p'.entries.map Prod.fst) ∧
      ∀ op ∈ ops, op.identifier ∈ p'.entries.map Prod.fst := by
  induction ops generalizing p tr with
  | nil =>
    simp only [padds, Except.ok.injEq, Prod.mk.injEq] at hok
    obtain ⟨rfl, _⟩ := hok
    exact ⟨fun k hk => hk, fun op hop => by simp at hop⟩
  | cons op ops ih =>
    obtain ⟨p1, h1, c1, c2, e1, e2, _⟩ := padds_cons_ok abi p op ops p' tr hok
    obtain ⟨a, _, b⟩ := padd_len abi p _ _ _ _ hw p1 h1 c1 e1
    have hw1 : p1.wf := ⟨by rw [a]; exact hw.1, by rw [b, a]; exact hw.2⟩
    obtain ⟨hnew, hmono⟩ := padd_keys_mono abi p _ _ _ _ hw p1 h1 c1 e1
    obtain ⟨i1, i2⟩ := ih p1 hw1 c2 e2
    refine ⟨fun k hk => i1 k (hmono k hk), ?_⟩
    intro o ho
    rcases List.mem_cons.1 ho with rfl | ho
    · exact i1 _ hnew
    · exact i2 o ho

/-- In a table that satisfies the invariant, a completed `padd` of an identifier
the table already holds adds no node. -/
theorem padd_update_length (abi : Abi) (p : prototype) (id : CStr) (d : Descriptor)
    (f : Freer) (v : VoidPtr) (hi : p.Inv abi) (hmem : id ∈ p.entries.map Prod.fst)
    (p' : prototype) (h : VoidPtr) (cs : List Call)
    (hok : padd abi p id d f v = Except.ok (p', h, cs)) :
    p'.entries.length = p.entries.length := by
  obtain ⟨X, Y, hX, hY⟩ := padd_entries abi p id d f v hi.1 p' h cs hok
  rcases hY with ⟨e, _⟩ | ⟨x, _, e, _, _⟩
  · exfalso
    have hn := inv_nodup abi p' (inv_padd abi p id d f v hi p' h cs hok)
    rw [hX, List.map_append, List.map_cons, List.nodup_append] at hn
    obtain ⟨_, hb, hdis⟩ := hn
    rw [e, List.map_append] at hmem
    rcases List.mem_append.1 hmem with hm | hm
    · exact hdis hm (List.mem_cons_self _ _)
    · exact (List.nodup_cons.1 hb).1 hm
  · rw [hX, e]; simp

theorem foldl_char_eq (abi : Abi) (bs : List Nat) (h : ∀ b ∈ bs, charToULong abi b = b)
    (a : Nat) :
    bs.foldl (fun hash b => (hash * 33 + charToULong abi b) % 2 ^ abi.ulongBits) a =
      bs.foldl (fun hash b => (hash * 33 + b) % 2 ^ abi.ulongBits) a := by
  induction bs generalizing a with
  | nil => rfl
  | cons b bs ih =>
    rw [List.foldl_cons, List.foldl_cons, h b (List.mem_cons_self _ _)]
    exact ih (fun x hx => h x (List.mem_cons_of_mem _ hx)) _

theorem tfree_ok_hasFreers (t : TnodePtr) (cs : List Call) (h : tfree t = Except.ok cs) :
    t.hasFreers = true := by
  induction t generalizing cs with
  | NULL => rfl
  | node i d f v l r ihl ihr =>
    rw [tfree, tfreeval_node] at h
    by_cases he : Entry.hasFreer (i, d, f, v) = true
    · rw [if_pos he] at h
      simp only [bind, Except.bind] at h
      cases hl : tfree l with
      | error e => rw [hl] at h; simp at h
      | ok a =>
        rw [hl] at h
        simp only [] at h
        cases hr : tfree r with
        | error e => rw [hr] at h; simp at h
        | ok b =>
          rw [hasFreers_node, ihl a hl, he, ihr b hr]
          rfl
    · rw [if_neg he] at h
      simp [bind, Except.bind] at h

theorem owed_map_eq (es : List Entry) (h : ∀ e ∈ es, Entry.hasFreer e = true) :
    (owed es).map (fun c => ((some c.1 : Freer), c.2)) =
      (es.filter (fun e => e.2.1.owned)).map (fun e => (e.2.2.1, e.2.2.2)) := by
  induction es with
  | nil => rfl
  | cons e es ih =>
    have he := h e (List.mem_cons_self _ _)
    rw [owed_cons, List.map_append, ih (fun x hx => h x (List.mem_cons_of_mem _ hx))]
    obtain ⟨i, d, f, v⟩ := e
    cases ho : d.owned with
    | false =>
      rw [List.filter_cons_of_neg (by simp [ho])]
      simp [Entry.release, ho]
    | true =>
      rw [List.filter_cons_of_pos (by simp [ho])]
      cases f with
      | none => simp [Entry.hasFreer, ho] at he
      | some g => simp [Entry.release, ho]

/-- The tree before and after a completed `tadd`: the pointer in one cell is
replaced, either a null pointer by a fresh leaf, or the node holding the
identifier by the same node with the new descriptor, destructor and value. -/
theorem tadd_shape (c : Cell) (t : TnodePtr) (id : CStr) (d : Descriptor) (f : Freer)
    (v : VoidPtr) (t' : TnodePtr) (h : VoidPtr) (cs : List Call)
    (hok : tadd c t id d f v = Except.ok (t', h, cs)) :
    ∃ path A B, t'.entries = A ++ (id, d, f, v) :: B ∧
      ((t.sub path = TnodePtr.NULL ∧ t' = t.put path (talloc id d f v) ∧
          t'.sub path = talloc id d f v ∧ t.entries = A ++ B ∧ cs = []) ∨
        ∃ k g w l r, t.sub path = TnodePtr.node id k g w l r ∧
          t' = t.put path (TnodePtr.node id d f v l r) ∧
          t'.sub path = TnodePtr.node id d f v l r ∧
          t.entries = A ++ (id, k, g, w) :: B ∧
          cs = (Entry.release (id, k, g, w)).toList) := by
  induction t generalizing c t' h cs with
  | NULL =>
    simp only [tadd, Except.ok.injEq, Prod.mk.injEq] at hok
    obtain ⟨rfl, rfl, rfl⟩ := hok
    exact ⟨[], [], [], rfl, Or.inl ⟨rfl, rfl, rfl, rfl, rfl⟩⟩
  | node i d0 f0 v0 l r ihl ihr =>
    rw [tadd_node_eq] at hok
    by_cases h0 : strcmp id i ≠ 0
    · rw [if_pos h0] at hok
      by_cases h1 : strcmp id i > 0
      · rw [if_pos h1] at hok
        obtain ⟨⟨r', h', cs'⟩, hr, he⟩ := except_map_eq_ok _ _ _ hok
        simp only [Prod.mk.injEq] at he
        obtain ⟨rfl, rfl, rfl⟩ := he
        obtain ⟨path, A, B, hA, hB⟩ := ihr (Cell.right c) r' h' cs' hr
        refine ⟨Dir.right :: path, l.entries ++ (i, d0, f0, v0) :: A, B, ?_, ?_⟩
        · simp [TnodePtr.entries, hA]
        · rcases hB with ⟨e1, e2, e3, e4, e5⟩ | ⟨k, g, w, a, b, e1, e2, e3, e4, e5⟩
          · refine Or.inl ⟨by rw [sub_cons]; exact e1, by rw [TnodePtr.put, ← e2],
              by rw [sub_cons]; exact e3, by simp [TnodePtr.entries, e4], e5⟩
          · refine Or.inr ⟨k, g, w, a, b, by rw [sub_cons]; exact e1,
              by rw [TnodePtr.put, ← e2], by rw [sub_cons]; exact e3,
              by simp [TnodePtr.entries, e4], e5⟩
      · rw [if_neg h1] at hok
        obtain ⟨⟨l', h', cs'⟩, hl, he⟩ := except_map_eq_ok _ _ _ hok
        simp only [Prod.mk.injEq] at he
        obtain ⟨rfl, rfl, rfl⟩ := he
        obtain ⟨path, A, B, hA, hB⟩ := ihl (Cell.left c) l' h' cs' hl
        refine ⟨Dir.left :: path, A, B ++ (i, d0, f0, v0) :: r.entries, ?_, ?_⟩
        · simp [TnodePtr.entries, hA]
        · rcases hB with ⟨e1, e2, e3, e4, e5⟩ | ⟨k, g, w, a, b, e1, e2, e3, e4, e5⟩
          · refine Or.inl ⟨by rw [sub_cons]; exact e1, by rw [TnodePtr.put, ← e2],
              by rw [sub_cons]; exact e3, by simp [TnodePtr.entries, e4], e5⟩
          · refine Or.inr ⟨k, g, w, a, b, by rw [sub_cons]; exact e1,
              by rw [TnodePtr.put, ← e2], by rw [sub_cons]; exact e3,
              by simp [TnodePtr.entries, e4], e5⟩
    · rw [if_neg h0, tfreeval_node] at hok
      have hid : id = i := (strcmp_eq_zero_iff id i).1 (by simpa using h0)
      subst hid
      by_cases he : Entry.hasFreer (id, d0, f0, v0) = true
      · rw [if_pos he] at hok
        simp only [Except.map, Except.ok.injEq, Prod.mk.injEq] at hok
        obtain ⟨rfl, rfl, rfl⟩ := hok
        exact ⟨[], l.entries, r.entries, rfl,
          Or.inr ⟨d0, f0, v0, l, r, rfl, rfl, rfl, rfl, rfl⟩⟩
      · rw [if_neg he] at hok
        simp [Except.map] at hok

/-- Replacing the pointer in one cell by a node with the same children leaves
every other cell of the tree with the node it had: same identifier, descriptor,
destructor and value, or null as before. -/
theorem fields_put (t n : TnodePtr) (path q : List Dir) (hq : q ≠ path)
    (hch : ∀ s, n.child s = (t.sub path).child s) :
    ((t.put path n).sub q).fields = (t.sub q).fields := by
  induction path generalizing t q with
  | nil =>
    cases q with
    | nil => exact absurd rfl hq
    | cons s q =>
      have : (t.put [] n) = n := by cases t <;> rfl
      rw [this, sub_cons, sub_cons, hch s]
      rfl
  | cons a path ih =>
    cases t with
    | NULL => rfl
    | node i d f v l r =>
      cases a with
      | left =>
        cases q with
        | nil => rfl
        | cons s q =>
          cases s with
          | left =>
            exact ih l q (fun e => hq (by rw [e])) hch
          | right => rfl
      | right =>
        cases q with
        | nil => rfl
        | cons s q =>
          cases s with
          | left => rfl
          | right =>
            exact ih r q (fun e => hq (by rw [e])) hch

/-- A completed `tadd` of one identifier leaves the result of `tget` for every
other identifier as it was. -/
theorem tget_tadd_other (c : Cell) (t : TnodePtr) (a b : CStr) (d : Descriptor) (f : Freer)
    (v : VoidPtr) (hab : a ≠ b) (t' : TnodePtr) (h : VoidPtr) (cs : List Call)
    (hok : tadd c t a d f v = Except.ok (t', h, cs)) : tget c t' b = tget c t b := by
  induction t generalizing c t' h cs with
  | NULL =>
    simp only [tadd, Except.ok.injEq, Prod.mk.injEq] at hok
    obtain ⟨rfl, rfl, rfl⟩ := hok
    have hb : strcmp b a ≠ 0 := fun e => hab ((strcmp_eq_zero_iff b a).1 e).symm
    have e : tget c TnodePtr.NULL b = NULL := rfl
    rw [e, talloc, tget, if_pos hb]
    by_cases h1 : strcmp b a > 0
    · rw [if_pos h1]; rfl
    · rw [if_neg h1]; rfl
  | node i d0 f0 v0 l r ihl ihr =>
    rw [tadd_node_eq] at hok
    by_cases h0 : strcmp a i ≠ 0
    · rw [if_pos h0] at hok
      by_cases h1 : strcmp a i > 0
      · rw [if_pos h1] at hok
        obtain ⟨⟨r', h', cs'⟩, hr, he⟩ := except_map_eq_ok _ _ _ hok
        simp only [Prod.mk.injEq] at he
        obtain ⟨rfl, rfl, rfl⟩ := he
        rw [tget, tget, ihr (Cell.right c) r' h' cs' hr]
      · rw [if_neg h1] at hok
        obtain ⟨⟨l', h', cs'⟩, hl, he⟩ := except_map_eq_ok _ _ _ hok
        simp only [Prod.mk.injEq] at he
        obtain ⟨rfl, rfl, rfl⟩ := he
        rw [tget, tget, ihl (Cell.left c) l' h' cs' hl]
    · rw [if_neg h0] at hok
      obtain ⟨cs', _, he⟩ := except_map_eq_ok _ _ _ hok
      simp only [Prod.mk.injEq] at he
      obtain ⟨rfl, rfl, rfl⟩ := he
      have hid : a = i := (strcmp_eq_zero_iff a i).1 (by simpa using h0)
      subst hid
      have hb : strcmp b a ≠ 0 := fun e => hab ((strcmp_eq_zero_iff b a).1 e).symm
      rw [tget, tget, if_pos hb, if_pos hb]

theorem getD_set_ne (nodes : List TnodePtr) (i j : Nat) (t : TnodePtr) (hij : i ≠ j) :
    (nodes.set i t).getD j TnodePtr.NULL = nodes.getD j TnodePtr.NULL := by
  simp [List.getD_eq_getElem?_getD, List.getElem?_set_ne hij]

/-- A completed `padd` of one identifier leaves the result of `pget` for every
other identifier and the nodes of every other identifier as they were. -/
theorem pget_padd_other (abi : Abi) (p : prototype) (a b : CStr) (d : Descriptor) (f : Freer)
    (v : VoidPtr) (hw : p.wf) (hab : a ≠ b) (p' : prototype) (h : VoidPtr) (cs : List Call)
    (hok : padd abi p a d f v = Except.ok (p', h, cs)) :
    pget abi p' b = pget abi p b ∧
      p'.entries.filter (fun e => decide (e.1 = b)) =
        p.entries.filter (fun e => decide (e.1 = b)) := by
  obtain ⟨t', ht, hp⟩ := padd_ok_inv abi p a d f v hw p' h cs hok
  obtain ⟨_, hlt⟩ := bucketIndex_wf abi p a hw
  have hw' : p'.wf := by rw [hp]; exact wf_set p _ t' hw
  have hlen : p'.len = p.len := by rw [hp]
  constructor
  · rw [pget_wf_eq abi p' b hw', pget_wf_eq abi p b hw, hlen]
    by_cases hj : phash abi a % p.len.toNat = phash abi b % p.len.toNat
    · have hget : p'.nodes.getD (phash abi b % p.len.toNat) TnodePtr.NULL = t' := by
        rw [hp, ← hj]; exact getD_set_self _ _ _ hlt
      rw [hget, ← hj, tget_tadd_other _ _ a b d f v hab t' h cs ht]
    · have hget : p'.nodes.getD (phash abi b % p.len.toNat) TnodePtr.NULL =
          p.nodes.getD (phash abi b % p.len.toNat) TnodePtr.NULL := by
        rw [hp]; exact getD_set_ne _ _ _ _ hj
      rw [hget]
  · obtain ⟨X, Y, hX, hY⟩ := padd_entries abi p a d f v hw p' h cs hok
    have hna : ¬ a = b := hab
    rcases hY with ⟨e, _⟩ | ⟨x, hx, e, _, _⟩
    · rw [hX, e, List.filter_append, List.filter_append,
        List.filter_cons_of_neg (by simpa using hna)]
    · rw [hX, e, List.filter_append, List.filter_append,
        List.filter_cons_of_neg (by simpa using hna),
        List.filter_cons_of_neg (by rw [hx]; simpa using hna)]

theorem padd_error (abi : Abi) (p : prototype) (id : CStr) (d : Descriptor) (f : Freer)
    (v : VoidPtr) (hw : p.wf) (e : Fault) (he : padd abi p id d f v = Except.error e) :
    e = Fault.nullCall := by
  rw [padd_wf_eq abi p id d f v hw] at he
  rcases tadd_total (Cell.bucket (phash abi id % p.len.toNat))
    (p.nodes.getD (phash abi id % p.len.toNat) TnodePtr.NULL) id d f v with
    ⟨t', h, cs, hok⟩ | ⟨herr, _⟩
  · rw [hok] at he
    simp [Except.map] at he
  · rw [herr] at he
    simp only [Except.map, Except.error.injEq] at he
    exact he.symm

/-- `tadd` returns whenever no node holding the identifier is an owned node with
a null destructor. -/
theorem tadd_ok_of_releasable (c : Cell) (t : TnodePtr) (id : CStr) (d : Descriptor)
    (f : Freer) (v : VoidPtr)
    (hrel : ∀ e ∈ t.entries, e.1 = id → Entry.hasFreer e = true) :
    ∃ t' h cs, tadd c t id d f v = Except.ok (t', h, cs) := by
  rcases tadd_total c t id d f v with hok | ⟨_, e, he, he1, he2⟩
  · exact hok
  · rw [hrel e he he1] at he2
    cases he2

/-- `padd` returns on a well laid out table whenever no node holding the
identifier is an owned node with a null destructor. -/
theorem padd_ok_of_releasable (abi : Abi) (p : prototype) (id : CStr) (d : Descriptor)
    (f : Freer) (v : VoidPtr) (hw : p.wf)
    (hrel : ∀ e ∈ p.entries, e.1 = id → Entry.hasFreer e = true) :
    ∃ p' h cs, padd abi p id d f v = Except.ok (p', h, cs) := by
  obtain ⟨_, hlt⟩ := bucketIndex_wf abi p id hw
  rw [padd_wf_eq abi p id d f v hw]
  obtain ⟨t', h, cs, e⟩ := tadd_ok_of_releasable (Cell.bucket (phash abi id % p.len.toNat))
    (p.nodes.getD (phash abi id % p.len.toNat) TnodePtr.NULL) id d f v
    (fun e he he1 => hrel e (by
      unfold prototype.entries
      rw [List.mem_flatten]
      exact ⟨_, List.mem_map.2 ⟨_, List.getElem?_mem (getElem?_eq_getD _ _ hlt), rfl⟩, he⟩)
      he1)
  rw [e]
  exact ⟨_, _, _, rfl⟩

/-! ## C1: round trip -/

/-- C1, as stated, fails: in a table of one bucket, `padd` of `"x"` with kind
`ptboxed`, a destructor and a null payload returns, and the `pget` right after it
returns the null pointer, which is the absent result. -/
theorem C1_counterexample :
    padd lp64 (palloc 1) idX Descriptor.ptboxed (some 1) NULL =
        Except.ok (⟨1, false, [talloc idX Descriptor.ptboxed (some 1) NULL]⟩, NULL, []) ∧
      pget lp64 ⟨1, false, [talloc idX Descriptor.ptboxed (some 1) NULL]⟩ idX =
        Except.ok NULL :=
  ⟨rfl, rfl⟩

/-- C1 (amended): in a table laid out with a positive bucket count, for every
identifier, every kind among `ptboxed`, `ptreference`, `ptunmanaged`, every
destructor and payload, whether or not the identifier was present: after a `padd`
that returns, `pget` of the identifier returns the payload itself for `ptboxed`
(so it is absent exactly when the payload is null), and for the other two kinds
the non-null address of the `val` member of the node that holds the identifier,
whose content is the payload.  `padd` returns whenever every owned node of the
table has a destructor. -/
theorem C1_roundtrip (abi : Abi) (p : prototype) (id : CStr) (d : Descriptor) (f : Freer)
    (v : VoidPtr) (hw : p.wf) (hd : d ≠ Descriptor.ptfunction) :
    (∀ p' h cs, padd abi p id d f v = Except.ok (p', h, cs) →
      (d = Descriptor.ptboxed → pget abi p' id = Except.ok v) ∧
      (d ≠ Descriptor.ptboxed → ∃ c l r, pget abi p' id = Except.ok (VoidPtr.slot c) ∧
        VoidPtr.slot c ≠ NULL ∧ p'.deref c = TnodePtr.node id d f v l r ∧
        p'.load (VoidPtr.slot c) = some v)) ∧
    (p.hasFreers = true → ∃ p' h cs, padd abi p id d f v = Except.ok (p', h, cs)) := by
  refine ⟨?_, padd_ok_of_hasFreers abi p id d f v hw⟩
  intro p' h cs hok
  obtain ⟨c, l, r, hc, _, hg⟩ := padd_spec abi p id d f v hw p' h cs hok
  constructor
  · intro e
    rw [hg, e]; rfl
  · intro e
    refine ⟨c, l, r, ?_, ?_, hc, ?_⟩
    · rw [hg]
      cases d <;> first | rfl | exact absurd rfl e | exact absurd rfl hd
    · intro hn; cases hn
    · show (p'.deref c).val? = some v
      rw [hc]; rfl

/-- C1 (amended) at a table of four buckets: `"x"` inserted as `ptunmanaged` with
the inline value 7 is read back through the slot address `pget` returns. -/
theorem C1_roundtrip_witness :
    (palloc 4).wf ∧ Descriptor.ptunmanaged ≠ Descriptor.ptfunction ∧
      padd lp64 (palloc 4) idX Descriptor.ptunmanaged none (VoidPtr.word 7) =
        Except.ok (⟨4, false, [TnodePtr.NULL,
          talloc idX Descriptor.ptunmanaged none (VoidPtr.word 7), TnodePtr.NULL,
          TnodePtr.NULL]⟩, VoidPtr.slot (Cell.bucket 1), []) ∧
      ∃ c l r,
        pget lp64 ⟨4, false, [TnodePtr.NULL,
          talloc idX Descriptor.ptunmanaged none (VoidPtr.word 7), TnodePtr.NULL,
          TnodePtr.NULL]⟩ idX = Except.ok (VoidPtr.slot c) ∧
        VoidPtr.slot c ≠ NULL ∧
        prototype.deref ⟨4, false, [TnodePtr.NULL,
          talloc idX Descriptor.ptunmanaged none (VoidPtr.word 7), TnodePtr.NULL,
          TnodePtr.NULL]⟩ c =
            TnodePtr.node idX Descriptor.ptunmanaged none (VoidPtr.word 7) l r ∧
        prototype.load ⟨4, false, [TnodePtr.NULL,
          talloc idX Descriptor.ptunmanaged none (VoidPtr.word 7), TnodePtr.NULL,
          TnodePtr.NULL]⟩ (VoidPtr.slot c) = some (VoidPtr.word 7) :=
  ⟨⟨by decide, rfl⟩, by decide, rfl,
    ((C1_roundtrip lp64 (palloc 4) idX Descriptor.ptunmanaged none (VoidPtr.word 7)
      ⟨by decide, rfl⟩ (by decide)).1 _ _ _ rfl).2 (by decide)⟩

/-! ## C2: uniqueness, update replaces -/

/-- C2, as stated, fails: in a table of four buckets, after `padd` of `"x"` with
kind `ptboxed`, a null destructor and value 5, the second `padd` of `"x"` must
release that value, which is a call through the null function pointer: the call
does not return and nothing is replaced. -/
theorem C2_counterexample :
    padds lp64 (palloc 4) [Insert.mk idX Descriptor.ptboxed none (VoidPtr.word 5)] =
        Except.ok (⟨4, false, [TnodePtr.NULL,
          talloc idX Descriptor.ptboxed none (VoidPtr.word 5), TnodePtr.NULL,
          TnodePtr.NULL]⟩, []) ∧
      padd lp64 ⟨4, false, [TnodePtr.NULL,
          talloc idX Descriptor.ptboxed none (VoidPtr.word 5), TnodePtr.NULL,
          TnodePtr.NULL]⟩ idX Descriptor.ptunmanaged none (VoidPtr.word 7) =
        Except.error Fault.nullCall :=
  ⟨rfl, rfl⟩

/-- C2 (amended): in a table built from `palloc(len)`, `len > 0`, by a sequence
of inserts among which the identifier was inserted, provided the node holding the
identifier is not an owned node (`ptboxed` or `ptreference`) with a null
destructor, a further `padd` of the same identifier, with any kind, destructor
and payload, returns, and afterwards the table holds exactly one node with that
identifier, no node was added, the node carries the kind, destructor and payload
of the second call, and `pget` returns the handle of that node for the second
call's kind and value.  The same holds of every second call that returns. -/
theorem C2_update_replaces (abi : Abi) (len : Int) (ops : List Insert) (p : prototype)
    (tr : List Call) (id : CStr) (k2 : Descriptor) (f2 : Freer) (v2 : VoidPtr)
    (hlen : 0 < len) (hreach : padds abi (palloc len) ops = Except.ok (p, tr))
    (hfirst : ∃ op ∈ ops, op.identifier = id) :
    ((∀ e ∈ p.entries, e.1 = id → Entry.hasFreer e = true) →
      ∃ p2 h2 c2, padd abi p id k2 f2 v2 = Except.ok (p2, h2, c2) ∧
        p2.entries.filter (fun e => decide (e.1 = id)) = [(id, k2, f2, v2)] ∧
        p2.entries.length = p.entries.length ∧
        ∃ c l r, p2.deref c = TnodePtr.node id k2 f2 v2 l r ∧
          pget abi p2 id = Except.ok (tgetReturn c k2 v2)) ∧
    (∀ p2 h2 c2, padd abi p id k2 f2 v2 = Except.ok (p2, h2, c2) →
      p2.entries.filter (fun e => decide (e.1 = id)) = [(id, k2, f2, v2)] ∧
      p2.entries.length = p.entries.length ∧
      ∃ c l r, p2.deref c = TnodePtr.node id k2 f2 v2 l r ∧
        pget abi p2 id = Except.ok (tgetReturn c k2 v2)) := by
  have hi0 := inv_palloc abi len hlen
  have hi : p.Inv abi := (inv_padds abi _ ops hi0 p tr hreach).1
  have key : ∀ p2 h2 c2, padd abi p id k2 f2 v2 = Except.ok (p2, h2, c2) →
      p2.entries.filter (fun e => decide (e.1 = id)) = [(id, k2, f2, v2)] ∧
      p2.entries.length = p.entries.length ∧
      ∃ c l r, p2.deref c = TnodePtr.node id k2 f2 v2 l r ∧
        pget abi p2 id = Except.ok (tgetReturn c k2 v2) := by
    intro p2 h2 c2 e2
    obtain ⟨op, hop, rfl⟩ := hfirst
    have hmem := (padds_keys_mono abi _ ops hi0.1 p tr hreach).2 op hop
    refine ⟨padd_filter abi p _ k2 f2 v2 hi p2 h2 c2 e2,
      padd_update_length abi p _ k2 f2 v2 hi hmem p2 h2 c2 e2, ?_⟩
    obtain ⟨c, l, r, hc, _, hg⟩ := padd_spec abi p _ k2 f2 v2 hi.1 p2 h2 c2 e2
    exact ⟨c, l, r, hc, hg⟩
  refine ⟨?_, key⟩
  intro hrel
  obtain ⟨p2, h2, c2, e2⟩ := padd_ok_of_releasable abi p id k2 f2 v2 hi.1 hrel
  exact ⟨p2, h2, c2, e2, key p2 h2 c2 e2⟩

/-- C2 (amended) at the scenario of the specification: four buckets, `"x"`
inserted as `ptboxed` with destructor 1 and value 5 and again as `ptunmanaged`
with value 7. -/
theorem C2_update_replaces_witness :
    (0 : Int) < 4 ∧
      padds lp64 (palloc 4) [Insert.mk idX Descriptor.ptboxed (some 1) (VoidPtr.word 5)] =
        Except.ok (⟨4, false, [TnodePtr.NULL,
          talloc idX Descriptor.ptboxed (some 1) (VoidPtr.word 5), TnodePtr.NULL,
          TnodePtr.NULL]⟩, []) ∧
      (∃ op ∈ [Insert.mk idX Descriptor.ptboxed (some 1) (VoidPtr.word 5)],
        op.identifier = idX) ∧
      (∀ e ∈ prototype.entries ⟨4, false, [TnodePtr.NULL,
          talloc idX Descriptor.ptboxed (some 1) (VoidPtr.word 5), TnodePtr.NULL,
          TnodePtr.NULL]⟩, e.1 = idX → Entry.hasFreer e = true) ∧
      padd lp64 ⟨4, false, [TnodePtr.NULL,
          talloc idX Descriptor.ptboxed (some 1) (VoidPtr.word 5), TnodePtr.NULL,
          TnodePtr.NULL]⟩ idX Descriptor.ptunmanaged none (VoidPtr.word 7) =
        Except.ok (⟨4, false, [TnodePtr.NULL,
          talloc idX Descriptor.ptunmanaged none (VoidPtr.word 7), TnodePtr.NULL,
          TnodePtr.NULL]⟩, VoidPtr.slot (Cell.bucket 1), [(1, VoidPtr.word 5)]) ∧
      (∃ p2 h2 c2, padd lp64 ⟨4, false, [TnodePtr.NULL,
          talloc idX Descriptor.ptboxed (some 1) (VoidPtr.word 5), TnodePtr.NULL,
          TnodePtr.NULL]⟩ idX Descriptor.ptunmanaged none (VoidPtr.word 7) =
            Except.ok (p2, h2, c2) ∧
        p2.entries.filter (fun e => decide (e.1 = idX)) =
          [(idX, Descriptor.ptunmanaged, none, VoidPtr.word 7)] ∧
        p2.entries.length = (prototype.entries ⟨4, false, [TnodePtr.NULL,
          talloc idX Descriptor.ptboxed (some 1) (VoidPtr.word 5), TnodePtr.NULL,
          TnodePtr.NULL]⟩).length ∧
        ∃ c l r, p2.deref c =
            TnodePtr.node idX Descriptor.ptunmanaged none (VoidPtr.word 7) l r ∧
          pget lp64 p2 idX =
            Except.ok (tgetReturn c Descriptor.ptunmanaged (VoidPtr.word 7))) :=
  ⟨by decide, rfl, ⟨_, List.mem_cons_self _ _, rfl⟩, by decide, rfl,
    (C2_update_replaces lp64 4 [Insert.mk idX Descriptor.ptboxed (some 1) (VoidPtr.word 5)]
      _ _ idX Descriptor.ptunmanaged none (VoidPtr.word 7) (by decide) rfl
      ⟨_, List.mem_cons_self _ _, rfl⟩).1 (by decide)⟩

/-! ## C3: release on overwrite -/

/-- C3: in a table that satisfies the invariant and holds the identifier with an
owned kind (`ptboxed` or `ptreference`), destructor `g` and payload `w`, a `padd`
of that identifier with any new kind, destructor and payload returns after
exactly one destructor call, `g(w)`: the release follows the node's prior kind
and prior destructor, not the new ones.  Afterwards the one node with the
identifier holds the new kind, destructor and payload. -/
theorem C3_release_on_overwrite (abi : Abi) (p : prototype) (id : CStr) (k : Descriptor)
    (g : Nat) (w : VoidPtr) (d : Descriptor) (f : Freer) (v : VoidPtr) (hi : p.Inv abi)
    (hk : k = Descriptor.ptboxed ∨ k = Descriptor.ptreference)
    (hmem : (id, k, some g, w) ∈ p.entries) :
    ∃ p' h, padd abi p id d f v = Except.ok (p', h, [(g, w)]) ∧
      p'.entries.filter (fun e => decide (e.1 = id)) = [(id, d, f, v)] := by
  have hf : Entry.hasFreer (id, k, some g, w) = true := by
    rcases hk with rfl | rfl <;> rfl
  have hr : Entry.release (id, k, some g, w) = some (g, w) := by
    rcases hk with rfl | rfl <;> rfl
  obtain ⟨p', h, e⟩ := padd_present abi p (id, k, some g, w) d f v hi hmem hf
  rw [hr] at e
  exact ⟨p', h, e, padd_filter abi p id d f v hi p' h _ e⟩

/-- C3 at a table of four buckets holding `"x"` as `ptboxed` with destructor 1
and value 5: re-inserting `"x"` as `ptunmanaged` with destructor 2 and value 7
calls destructor 1 on 5 and nothing else. -/
theorem C3_release_on_overwrite_witness :
    prototype.Inv lp64 ⟨4, false, [TnodePtr.NULL,
        talloc idX Descriptor.ptboxed (some 1) (VoidPtr.word 5), TnodePtr.NULL,
        TnodePtr.NULL]⟩ ∧
      (idX, Descriptor.ptboxed, some 1, VoidPtr.word 5) ∈
        prototype.entries ⟨4, false, [TnodePtr.NULL,
          talloc idX Descriptor.ptboxed (some 1) (VoidPtr.word 5), TnodePtr.NULL,
          TnodePtr.NULL]⟩ ∧
      ∃ p' h, padd lp64 ⟨4, false, [TnodePtr.NULL,
          talloc idX Descriptor.ptboxed (some 1) (VoidPtr.word 5), TnodePtr.NULL,
          TnodePtr.NULL]⟩ idX Descriptor.ptunmanaged (some 2) (VoidPtr.word 7) =
            Except.ok (p', h, [(1, VoidPtr.word 5)]) ∧
        p'.entries.filter (fun e => decide (e.1 = idX)) =
          [(idX, Descriptor.ptunmanaged, some 2, VoidPtr.word 7)] :=
  ⟨inv_padd lp64 (palloc 4) idX Descriptor.ptboxed (some 1) (VoidPtr.word 5)
      (inv_palloc lp64 4 (by decide)) _ _ _ rfl,
    by decide,
    C3_release_on_overwrite lp64 _ idX Descriptor.ptboxed 1 (VoidPtr.word 5)
      Descriptor.ptunmanaged (some 2) (VoidPtr.word 7)
      (inv_padd lp64 (palloc 4) idX Descriptor.ptboxed (some 1) (VoidPtr.word 5)
        (inv_palloc lp64 4 (by decide)) _ _ _ rfl)
      (Or.inl rfl) (by decide)⟩

/-! ## C4: teardown twice -/

/-- C4, the code at `pfree(p); pfree(p)`: on a table of four buckets holding
`"x"` as `ptboxed` with destructor 1 and value 5, the first `pfree` calls the
destructor once and releases the table, `free(p)` included; the second `pfree`
then reads `p->freed` in released storage, which is undefined behaviour and no
guarded no-op.  `pfree` of a null pointer does nothing. -/
theorem C4_second_pfree_faults :
    pfree (ProtoPtr.live ⟨4, false, [TnodePtr.NULL,
        talloc idX Descriptor.ptboxed (some 1) (VoidPtr.word 5), TnodePtr.NULL,
        TnodePtr.NULL]⟩) = Except.ok (ProtoPtr.released, [(1, VoidPtr.word 5)]) ∧
      pfree ProtoPtr.released = Except.error Fault.useAfterFree ∧
      pfree ProtoPtr.null = Except.ok (ProtoPtr.null, []) :=
  ⟨rfl, rfl, rfl⟩

/-! ## C5: every owned payload is released exactly once -/

/-- C5: for every positive bucket count and every sequence of `padd` calls on a
fresh table in which every `ptboxed`/`ptreference` insert supplies a destructor,
followed by one `pfree`, the run completes and the destructor calls made during
it, as (destructor, argument) pairs, are a permutation of the (destructor,
payload) pairs of the `ptboxed` and `ptreference` inserts: each owned payload is
released exactly once, and the other inserts cause no call. -/
theorem C5_exactly_once (abi : Abi) (len : Int) (ops : List Insert) (hlen : 0 < len)
    (hops : ∀ op ∈ ops, op.descriptor.owned = true → op.freer ≠ none) :
    ∃ calls, lifetime abi len ops = Except.ok calls ∧
      (calls.map (fun c => (some c.1, c.2))).Perm
        ((ops.filter (fun op => op.descriptor.owned)).map (fun op => (op.freer, op.val))) := by
  have hw0 : (palloc len).wf := (inv_palloc abi len hlen).1
  obtain ⟨p, tr, hrun, hf⟩ := padds_ok abi (palloc len) ops hw0 (hasFreers_palloc len) hops
  obtain ⟨hperm, hw, hfr⟩ := padds_owed abi (palloc len) ops hw0 p tr hrun
  obtain ⟨cs, hfree, hcs⟩ := pfree_live p hw (by rw [hfr]; rfl) hf
  refine ⟨tr ++ cs, ?_, ?_⟩
  · rw [lifetime, hrun]
    simp only [bind, Except.bind]
    rw [hfree]
    rfl
  · have h0 : owed (palloc len).entries = [] := by
      simp [owed, prototype.entries, palloc, TnodePtr.entries]
    rw [h0, List.nil_append] at hperm
    have h1 : (tr ++ cs).Perm (owed (ops.map Insert.entry)) :=
      (List.Perm.append_left tr hcs).trans hperm
    have h2 : (owed (ops.map Insert.entry)).map (fun c => (some c.1, c.2)) =
        (ops.filter (fun op => op.descriptor.owned)).map (fun op => (op.freer, op.val)) := by
      clear h1 hperm hrun
      induction ops with
      | nil => rfl
      | cons op ops ih =>
        have hop := hops op (List.mem_cons_self _ _)
        have ih' := ih (fun o ho => hops o (List.mem_cons_of_mem _ ho))
        rw [List.map_cons, owed_cons, List.map_append, ih']
        cases ho : op.descriptor.owned with
        | false =>
          rw [List.filter_cons_of_neg (by simp [ho])]
          simp [Entry.release, Insert.entry, ho]
        | true =>
          rw [List.filter_cons_of_pos (by simp [ho])]
          cases hfr : op.freer with
          | none => exact absurd hfr (hop ho)
          | some g => simp [Entry.release, Insert.entry, ho, hfr]
    rw [← h2]
    exact h1.map _

/-- C5 at the scenario of the specification: four buckets, `"x"` as `ptboxed`
with destructor 1 and value 5, `"y"` as `ptfunction` with value 9, `"x"` again
as `ptunmanaged` with value 7, then `pfree`: the only call is destructor 1 on 5. -/
theorem C5_exactly_once_witness :
    (0 : Int) < 4 ∧
      (∀ op ∈ [Insert.mk idX Descriptor.ptboxed (some 1) (VoidPtr.word 5),
          Insert.mk idY Descriptor.ptfunction none (VoidPtr.word 9),
          Insert.mk idX Descriptor.ptunmanaged none (VoidPtr.word 7)],
        op.descriptor.owned = true → op.freer ≠ none) ∧
      lifetime lp64 4 [Insert.mk idX Descriptor.ptboxed (some 1) (VoidPtr.word 5),
          Insert.mk idY Descriptor.ptfunction none (VoidPtr.word 9),
          Insert.mk idX Descriptor.ptunmanaged none (VoidPtr.word 7)] =
        Except.ok [(1, VoidPtr.word 5)] ∧
      ∃ calls, lifetime lp64 4 [Insert.mk idX Descriptor.ptboxed (some 1) (VoidPtr.word 5),
          Insert.mk idY Descriptor.ptfunction none (VoidPtr.word 9),
          Insert.mk idX Descriptor.ptunmanaged none (VoidPtr.word 7)] = Except.ok calls ∧
        (calls.map (fun c => (some c.1, c.2))).Perm
          (([Insert.mk idX Descriptor.ptboxed (some 1) (VoidPtr.word 5),
            Insert.mk idY Descriptor.ptfunction none (VoidPtr.word 9),
            Insert.mk idX Descriptor.ptunmanaged none (VoidPtr.word 7)].filter
              (fun op => op.descriptor.owned)).map (fun op => (op.freer, op.val))) :=
  ⟨by decide, by decide, rfl,
    C5_exactly_once lp64 4 _ (by decide) (by decide)⟩

/-! ## C6: a miss is absent -/

/-- C6: in a table built from `palloc(len)`, `len > 0`, by any sequence of `padd`
calls, `pget` of an identifier that was never inserted returns the null pointer;
so does every `pget` on the fresh table.  `pget` yields only the returned
pointer: it makes no destructor call and leaves the table as it is. -/
theorem C6_miss_absent (abi : Abi) (len : Int) (ops : List Insert) (p : prototype)
    (tr : List Call) (id : CStr) (hlen : 0 < len)
    (hreach : padds abi (palloc len) ops = Except.ok (p, tr))
    (hnew : ∀ op ∈ ops, op.identifier ≠ id) :
    pget abi p id = Except.ok NULL ∧ pget abi (palloc len) id = Except.ok NULL := by
  have hi0 := inv_palloc abi len hlen
  have hi := (inv_padds abi _ ops hi0 p tr hreach).1
  constructor
  · apply pget_absent abi p id hi.1
    intro hk
    rcases padds_keys abi _ ops hi0.1 p tr hreach id hk with h | h
    · rw [entries_palloc] at h
      simp at h
    · obtain ⟨op, hop, e⟩ := List.mem_map.1 h
      exact hnew op hop e
  · apply pget_absent abi _ id hi0.1
    rw [entries_palloc]
    simp

/-- C6 at a table of four buckets holding `"x"`: `"y"` was never inserted and
`pget` of it returns the null pointer. -/
theorem C6_miss_absent_witness :
    (0 : Int) < 4 ∧
      padds lp64 (palloc 4) [Insert.mk idX Descriptor.ptboxed (some 1) (VoidPtr.word 5)] =
        Except.ok (⟨4, false, [TnodePtr.NULL,
          talloc idX Descriptor.ptboxed (some 1) (VoidPtr.word 5), TnodePtr.NULL,
          TnodePtr.NULL]⟩, []) ∧
      (∀ op ∈ [Insert.mk idX Descriptor.ptboxed (some 1) (VoidPtr.word 5)],
        op.identifier ≠ idY) ∧
      pget lp64 ⟨4, false, [TnodePtr.NULL,
          talloc idX Descriptor.ptboxed (some 1) (VoidPtr.word 5), TnodePtr.NULL,
          TnodePtr.NULL]⟩ idY = Except.ok NULL ∧
      pget lp64 (palloc 4) idY = Except.ok NULL :=
  ⟨by decide, rfl, by decide,
    C6_miss_absent lp64 4 [Insert.mk idX Descriptor.ptboxed (some 1) (VoidPtr.word 5)] _ _
      idY (by decide) rfl (by decide)⟩

/-! ## C7: lexical ordering -/

/-- C7: for every tree whose in-order traversal lists the identifiers in
strictly ascending `strcmp` order, the tree left by a `tadd` that returns, with
any identifier, kind, destructor and payload, is again in strictly ascending
order and has no duplicate identifier, and `tadd` returns whenever every owned
node of the tree has a destructor; hence every bucket of every table built from
`palloc(len)`, `len > 0`, by `padd` calls is in strictly ascending order without
duplicates. -/
theorem C7_ordering :
    (∀ (c : Cell) (t : TnodePtr) (id : CStr) (d : Descriptor) (f : Freer) (v : VoidPtr),
      ascending t.keys →
        (∀ t' h cs, tadd c t id d f v = Except.ok (t', h, cs) →
          ascending t'.keys ∧ t'.keys.Nodup) ∧
        (t.hasFreers = true → ∃ t' h cs, tadd c t id d f v = Except.ok (t', h, cs))) ∧
    (∀ (abi : Abi) (len : Int) (ops : List Insert) (p : prototype) (tr : List Call),
      0 < len → padds abi (palloc len) ops = Except.ok (p, tr) →
        ∀ t ∈ p.nodes, ascending t.keys ∧ t.keys.Nodup) := by
  constructor
  · intro c t id d f v hs
    refine ⟨?_, tadd_ok_of_hasFreers c t id d f v⟩
    intro t' h cs hok
    have hp := tadd_pairwise c t id d f v t' h cs ((ascending_iff_pairwise _).1 hs) hok
    exact ⟨(ascending_iff_pairwise _).2 hp, pairwise_nodup _ hp⟩
  · intro abi len ops p tr hlen hreach t ht
    have hi := (inv_padds abi _ ops (inv_palloc abi len hlen) p tr hreach).1
    obtain ⟨i, hit⟩ := List.mem_iff_getElem?.1 ht
    have ha := (hi.2 i t hit).1
    exact ⟨ha, pairwise_nodup _ ((ascending_iff_pairwise _).1 ha)⟩

/-- C7 at the tree holding `"x"`: inserting `"y"` gives the in-order sequence
`"x"`, `"y"`, in ascending order. -/
theorem C7_ordering_witness :
    ascending (talloc idX Descriptor.ptboxed (some 1) (VoidPtr.word 5)).keys ∧
      tadd (Cell.bucket 0) (talloc idX Descriptor.ptboxed (some 1) (VoidPtr.word 5)) idY
          Descriptor.ptfunction none (VoidPtr.word 9) =
        Except.ok (TnodePtr.node idX Descriptor.ptboxed (some 1) (VoidPtr.word 5)
          TnodePtr.NULL (talloc idY Descriptor.ptfunction none (VoidPtr.word 9)),
          VoidPtr.slot (Cell.right (Cell.bucket 0)), []) ∧
      ascending (TnodePtr.node idX Descriptor.ptboxed (some 1) (VoidPtr.word 5)
          TnodePtr.NULL (talloc idY Descriptor.ptfunction none (VoidPtr.word 9))).keys ∧
      (TnodePtr.node idX Descriptor.ptboxed (some 1) (VoidPtr.word 5)
          TnodePtr.NULL (talloc idY Descriptor.ptfunction none (VoidPtr.word 9))).keys =
        [idX, idY] :=
  ⟨List.chain'_singleton _, rfl,
    ((C7_ordering.1 (Cell.bucket 0) (talloc idX Descriptor.ptboxed (some 1) (VoidPtr.word 5))
      idY Descriptor.ptfunction none (VoidPtr.word 9) (List.chain'_singleton _)).1
        _ _ _ rfl).1,
    rfl⟩

/-! ## C8: table-wide uniqueness -/

/-- C8: in every table built from `palloc(len)`, `len > 0`, by any sequence of
`padd` calls, the bucket count is still `len` and the bucket array still has
`len` elements, every node stored in bucket `i` has an identifier with
`phash(identifier) % len = i`, and no identifier is held by more than one node of
the whole table. -/
theorem C8_table_unique (abi : Abi) (len : Int) (ops : List Insert) (p : prototype)
    (tr : List Call) (hlen : 0 < len)
    (hreach : padds abi (palloc len) ops = Except.ok (p, tr)) :
    p.len = len ∧ p.nodes.length = len.toNat ∧
      (∀ (i : Nat) (t : TnodePtr), p.nodes[i]? = some t →
        ∀ k ∈ t.keys, (phash abi k : Int) % len = (i : Int)) ∧
      (p.entries.map Prod.fst).Nodup := by
  obtain ⟨hi, hl⟩ := inv_padds abi _ ops (inv_palloc abi len hlen) p tr hreach
  have hl' : p.len = len := hl
  refine ⟨hl', by rw [hi.1.2, hl'], ?_, inv_nodup abi p hi⟩
  intro i t hit k hk
  have h := (hi.2 i t hit).2 k hk
  rw [hl'] at h
  have hc : ((len.toNat : Nat) : Int) = len := Int.toNat_of_nonneg (le_of_lt hlen)
  rw [← hc, ← h]
  norm_cast

/-- C8 at the scenario of the specification: four buckets with `"x"` and `"y"`. -/
theorem C8_table_unique_witness :
    (0 : Int) < 4 ∧
      padds lp64 (palloc 4) [Insert.mk idX Descriptor.ptboxed (some 1) (VoidPtr.word 5),
          Insert.mk idY Descriptor.ptfunction none (VoidPtr.word 9)] =
        Except.ok (⟨4, false, [TnodePtr.NULL,
          talloc idX Descriptor.ptboxed (some 1) (VoidPtr.word 5),
          talloc idY Descriptor.ptfunction none (VoidPtr.word 9), TnodePtr.NULL]⟩, []) ∧
      (prototype.entries ⟨4, false, [TnodePtr.NULL,
          talloc idX Descriptor.ptboxed (some 1) (VoidPtr.word 5),
          talloc idY Descriptor.ptfunction none (VoidPtr.word 9),
          TnodePtr.NULL]⟩).map Prod.fst = [idX, idY] ∧
      ((prototype.entries ⟨4, false, [TnodePtr.NULL,
          talloc idX Descriptor.ptboxed (some 1) (VoidPtr.word 5),
          talloc idY Descriptor.ptfunction none (VoidPtr.word 9),
          TnodePtr.NULL]⟩).map Prod.fst).Nodup :=
  ⟨by decide, rfl, rfl,
    (C8_table_unique lp64 4 [Insert.mk idX Descriptor.ptboxed (some 1) (VoidPtr.word 5),
      Insert.mk idY Descriptor.ptfunction none (VoidPtr.word 9)] _ _ (by decide) rfl).2.2.2⟩

/-! ## C9: the pointer `tget` returns -/

/-- C9: for every tree in ascending order and every node of it, with identifier
`id`, kind `d`, destructor `f` and payload `v`, `tget` of `id` stops at that node
and returns the stored payload itself when the kind is `ptfunction` or `ptboxed`,
and the address of that node's `val` member when the kind is `ptreference` or
`ptunmanaged`: the kind stored in the node decides. -/
theorem C9_lookup_shape (c : Cell) (t : TnodePtr) (id : CStr) (d : Descriptor) (f : Freer)
    (v : VoidPtr) (hs : ascending t.keys) (hmem : (id, d, f, v) ∈ t.entries) :
    ∃ path l r, t.sub path = TnodePtr.node id d f v l r ∧
      ((d = Descriptor.ptfunction ∨ d = Descriptor.ptboxed) → tget c t id = v) ∧
      ((d = Descriptor.ptreference ∨ d = Descriptor.ptunmanaged) →
        tget c t id = VoidPtr.slot (c.walk path)) := by
  obtain ⟨path, l, r, h1, h2⟩ :=
    tget_spec c t (id, d, f, v) ((ascending_iff_pairwise _).1 hs) hmem
  refine ⟨path, l, r, h1, ?_, ?_⟩
  · rintro (rfl | rfl) <;> exact h2
  · rintro (rfl | rfl) <;> exact h2

/-- C9 at the tree with `"x"` (`ptboxed`, value 5) at the root and `"y"`
(`ptunmanaged`, value 7) as its right child: `tget` of `"y"` returns the address
of the `val` member of the right child. -/
theorem C9_lookup_shape_witness :
    ascending (TnodePtr.node idX Descriptor.ptboxed (some 1) (VoidPtr.word 5)
        TnodePtr.NULL (talloc idY Descriptor.ptunmanaged none (VoidPtr.word 7))).keys ∧
      (idY, Descriptor.ptunmanaged, none, VoidPtr.word 7) ∈
        (TnodePtr.node idX Descriptor.ptboxed (some 1) (VoidPtr.word 5)
          TnodePtr.NULL (talloc idY Descriptor.ptunmanaged none (VoidPtr.word 7))).entries ∧
      tget (Cell.bucket 0) (TnodePtr.node idX Descriptor.ptboxed (some 1) (VoidPtr.word 5)
          TnodePtr.NULL (talloc idY Descriptor.ptunmanaged none (VoidPtr.word 7))) idY =
        VoidPtr.slot (Cell.right (Cell.bucket 0)) ∧
      ∃ path l r,
        (TnodePtr.node idX Descriptor.ptboxed (some 1) (VoidPtr.word 5)
          TnodePtr.NULL (talloc idY Descriptor.ptunmanaged none (VoidPtr.word 7))).sub path =
          TnodePtr.node idY Descriptor.ptunmanaged none (VoidPtr.word 7) l r ∧
        ((Descriptor.ptunmanaged = Descriptor.ptfunction ∨
            Descriptor.ptunmanaged = Descriptor.ptboxed) →
          tget (Cell.bucket 0) (TnodePtr.node idX Descriptor.ptboxed (some 1) (VoidPtr.word 5)
            TnodePtr.NULL (talloc idY Descriptor.ptunmanaged none (VoidPtr.word 7))) idY =
            VoidPtr.word 7) ∧
        ((Descriptor.ptunmanaged = Descriptor.ptreference ∨
            Descriptor.ptunmanaged = Descriptor.ptunmanaged) →
          tget (Cell.bucket 0) (TnodePtr.node idX Descriptor.ptboxed (some 1) (VoidPtr.word 5)
            TnodePtr.NULL (talloc idY Descriptor.ptunmanaged none (VoidPtr.word 7))) idY =
            VoidPtr.slot ((Cell.bucket 0).walk path)) :=
  ⟨List.chain'_pair.2 (by decide), by decide, rfl,
    C9_lookup_shape (Cell.bucket 0) _ idY Descriptor.ptunmanaged none (VoidPtr.word 7)
      (List.chain'_pair.2 (by decide)) (by decide)⟩

/-! ## C10: the pointer `tadd` returns -/

/-- C10, as stated, fails: on the tree whose root holds `"x"` with kind
`ptreference`, a null destructor and value 5, `tadd` of `"x"` with kind `ptboxed`
and value 9 must release the old value, which is a call through the null function
pointer: it returns nothing, not the payload 9. -/
theorem C10_counterexample :
    tadd (Cell.bucket 0) (talloc idX Descriptor.ptreference none (VoidPtr.word 5)) idX
        Descriptor.ptboxed (some 1) (VoidPtr.word 9) = Except.error Fault.nullCall ∧
      tadd (Cell.bucket 0) (talloc idX Descriptor.ptreference none (VoidPtr.word 5)) idX
        Descriptor.ptfunction none NULL = Except.error Fault.nullCall :=
  ⟨rfl, rfl⟩

/-- C10 (amended): for every tree, identifier, kind, destructor and payload such
that no node of the tree holding the identifier is an owned node (`ptboxed` or
`ptreference`) with a null destructor, `tadd` returns, leaves a node holding the
identifier with the given kind, destructor and payload (the fresh node or the
updated one), and returns the given payload itself when the kind is `ptboxed`,
and for the other three kinds the address of that node's `val` member, so that a
write through it changes what that node stores.  The same holds of every `tadd`
that returns. -/
theorem C10_insert_shape (c : Cell) (t : TnodePtr) (id : CStr) (d : Descriptor) (f : Freer)
    (v : VoidPtr) :
    ((∀ e ∈ t.entries, e.1 = id → Entry.hasFreer e = true) →
      ∃ t' h cs path l r, tadd c t id d f v = Except.ok (t', h, cs) ∧
        t'.sub path = TnodePtr.node id d f v l r ∧
        (d = Descriptor.ptboxed → h = v) ∧
        (d ≠ Descriptor.ptboxed → h = VoidPtr.slot (c.walk path)) ∧
        ∀ x, (t'.store path x).sub path = TnodePtr.node id d f x l r) ∧
    (∀ t' h cs, tadd c t id d f v = Except.ok (t', h, cs) →
      ∃ path l r, t'.sub path = TnodePtr.node id d f v l r ∧
        (d = Descriptor.ptboxed → h = v) ∧
        (d ≠ Descriptor.ptboxed → h = VoidPtr.slot (c.walk path)) ∧
        ∀ x, (t'.store path x).sub path = TnodePtr.node id d f x l r) := by
  have key : ∀ t' h cs, tadd c t id d f v = Except.ok (t', h, cs) →
      ∃ path l r, t'.sub path = TnodePtr.node id d f v l r ∧
        (d = Descriptor.ptboxed → h = v) ∧
        (d ≠ Descriptor.ptboxed → h = VoidPtr.slot (c.walk path)) ∧
        ∀ x, (t'.store path x).sub path = TnodePtr.node id d f x l r := by
    intro t' h cs hok
    obtain ⟨path, l, r, h1, h2, h3⟩ := tadd_spec_store c t id d f v t' h cs hok
    refine ⟨path, l, r, h1, ?_, ?_, fun x => (h3 x).1⟩
    · rintro rfl; exact h2
    · intro hd
      rw [h2]
      cases d <;> first | rfl | exact absurd rfl hd
  refine ⟨?_, key⟩
  intro hrel
  obtain ⟨t', h, cs, hok⟩ := tadd_ok_of_releasable c t id d f v hrel
  obtain ⟨path, l, r, hk⟩ := key t' h cs hok
  exact ⟨t', h, cs, path, l, r, hok, hk⟩

/-- C10 (amended) at the tree holding `"x"` as `ptboxed` with destructor 1:
`tadd` of `"x"` as `ptfunction` returns the address of the `val` member of the
root, `tadd` of `"y"` as `ptboxed` with value 9 returns 9. -/
theorem C10_insert_shape_witness :
    (∀ e ∈ (talloc idX Descriptor.ptboxed (some 1) (VoidPtr.word 5)).entries,
        e.1 = idX → Entry.hasFreer e = true) ∧
    tadd (Cell.bucket 0) (talloc idX Descriptor.ptboxed (some 1) (VoidPtr.word 5)) idX
        Descriptor.ptfunction none NULL =
      Except.ok (talloc idX Descriptor.ptfunction none NULL, VoidPtr.slot (Cell.bucket 0),
        [(1, VoidPtr.word 5)]) ∧
    tadd (Cell.bucket 0) (talloc idX Descriptor.ptboxed (some 1) (VoidPtr.word 5)) idY
        Descriptor.ptboxed (some 1) (VoidPtr.word 9) =
      Except.ok (TnodePtr.node idX Descriptor.ptboxed (some 1) (VoidPtr.word 5)
        TnodePtr.NULL (talloc idY Descriptor.ptboxed (some 1) (VoidPtr.word 9)),
        VoidPtr.word 9, []) ∧
    (∃ t' h cs path l r,
      tadd (Cell.bucket 0) (talloc idX Descriptor.ptboxed (some 1) (VoidPtr.word 5)) idX
        Descriptor.ptfunction none NULL = Except.ok (t', h, cs) ∧
      t'.sub path = TnodePtr.node idX Descriptor.ptfunction none NULL l r ∧
      (Descriptor.ptfunction = Descriptor.ptboxed → h = NULL) ∧
      (Descriptor.ptfunction ≠ Descriptor.ptboxed →
        h = VoidPtr.slot ((Cell.bucket 0).walk path)) ∧
      ∀ x, (t'.store path x).sub path =
        TnodePtr.node idX Descriptor.ptfunction none x l r) ∧
    (∃ path l r,
      (talloc idX Descriptor.ptfunction none NULL).sub path =
        TnodePtr.node idX Descriptor.ptfunction none NULL l r ∧
      (Descriptor.ptfunction = Descriptor.ptboxed → VoidPtr.slot (Cell.bucket 0) = NULL) ∧
      (Descriptor.ptfunction ≠ Descriptor.ptboxed →
        VoidPtr.slot (Cell.bucket 0) = VoidPtr.slot ((Cell.bucket 0).walk path)) ∧
      ∀ x, ((talloc idX Descriptor.ptfunction none NULL).store path x).sub path =
        TnodePtr.node idX Descriptor.ptfunction none x l r) :=
  ⟨by decide, rfl, rfl,
    (C10_insert_shape (Cell.bucket 0) (talloc idX Descriptor.ptboxed (some 1) (VoidPtr.word 5))
      idX Descriptor.ptfunction none NULL).1 (by decide),
    (C10_insert_shape (Cell.bucket 0) (talloc idX Descriptor.ptboxed (some 1) (VoidPtr.word 5))
      idX Descriptor.ptfunction none NULL).2 _ _ _ rfl⟩

/-! ## C11: the pointers of `padd` and of the `pget` after it -/

/-- C11, as stated, fails for `ptfunction`: in a table of four buckets `padd` of
`"y"` as `ptfunction` with value 9 returns the address of the node's `val`
member, not the callable, while the `pget` right after it returns the callable 9
itself. -/
theorem C11_counterexample :
    padd lp64 (palloc 4) idY Descriptor.ptfunction none (VoidPtr.word 9) =
        Except.ok (⟨4, false, [TnodePtr.NULL, TnodePtr.NULL,
          talloc idY Descriptor.ptfunction none (VoidPtr.word 9), TnodePtr.NULL]⟩,
          VoidPtr.slot (Cell.bucket 2), []) ∧
      pget lp64 ⟨4, false, [TnodePtr.NULL, TnodePtr.NULL,
          talloc idY Descriptor.ptfunction none (VoidPtr.word 9), TnodePtr.NULL]⟩ idY =
        Except.ok (VoidPtr.word 9) ∧
      VoidPtr.slot (Cell.bucket 2) ≠ VoidPtr.word 9 :=
  ⟨rfl, rfl, by decide⟩

/-- C11 (amended): in a table laid out with a positive bucket count, after a
`padd` that returns, with `c` the cell of the node that holds the identifier:
for `ptboxed` both `padd` and the `pget` right after it return the payload
itself; for `ptreference` and `ptunmanaged` both return the address of that
node's `val` member; for `ptfunction` `padd` returns the address of the `val`
member and `pget` returns the stored callable itself.  `padd` returns whenever
every owned node of the table has a destructor. -/
theorem C11_handle_shapes (abi : Abi) (p : prototype) (id : CStr) (d : Descriptor)
    (f : Freer) (v : VoidPtr) (hw : p.wf) :
    (∀ p' h cs, padd abi p id d f v = Except.ok (p', h, cs) →
      ∃ c l r, p'.deref c = TnodePtr.node id d f v l r ∧
        (d = Descriptor.ptboxed → h = v ∧ pget abi p' id = Except.ok v) ∧
        ((d = Descriptor.ptreference ∨ d = Descriptor.ptunmanaged) →
          h = VoidPtr.slot c ∧ pget abi p' id = Except.ok (VoidPtr.slot c)) ∧
        (d = Descriptor.ptfunction →
          h = VoidPtr.slot c ∧ pget abi p' id = Except.ok v)) ∧
    (p.hasFreers = true → ∃ p' h cs, padd abi p id d f v = Except.ok (p', h, cs)) := by
  refine ⟨?_, padd_ok_of_hasFreers abi p id d f v hw⟩
  intro p' h cs hok
  obtain ⟨c, l, r, hc, hh, hg⟩ := padd_spec abi p id d f v hw p' h cs hok
  refine ⟨c, l, r, hc, ?_, ?_, ?_⟩
  · rintro rfl; exact ⟨hh, hg⟩
  · rintro (rfl | rfl) <;> exact ⟨hh, hg⟩
  · rintro rfl; exact ⟨hh, hg⟩

/-- C11 (amended) at a table of four buckets and `"y"` inserted as `ptfunction`
with value 9. -/
theorem C11_handle_shapes_witness :
    (palloc 4).wf ∧
      padd lp64 (palloc 4) idY Descriptor.ptfunction none (VoidPtr.word 9) =
        Except.ok (⟨4, false, [TnodePtr.NULL, TnodePtr.NULL,
          talloc idY Descriptor.ptfunction none (VoidPtr.word 9), TnodePtr.NULL]⟩,
          VoidPtr.slot (Cell.bucket 2), []) ∧
      (∃ c l r,
        prototype.deref ⟨4, false, [TnodePtr.NULL, TnodePtr.NULL,
          talloc idY Descriptor.ptfunction none (VoidPtr.word 9), TnodePtr.NULL]⟩ c =
            TnodePtr.node idY Descriptor.ptfunction none (VoidPtr.word 9) l r ∧
        (Descriptor.ptfunction = Descriptor.ptboxed →
          VoidPtr.slot (Cell.bucket 2) = VoidPtr.word 9 ∧
          pget lp64 ⟨4, false, [TnodePtr.NULL, TnodePtr.NULL,
            talloc idY Descriptor.ptfunction none (VoidPtr.word 9), TnodePtr.NULL]⟩ idY =
              Except.ok (VoidPtr.word 9)) ∧
        ((Descriptor.ptfunction = Descriptor.ptreference ∨
            Descriptor.ptfunction = Descriptor.ptunmanaged) →
          VoidPtr.slot (Cell.bucket 2) = VoidPtr.slot c ∧
          pget lp64 ⟨4, false, [TnodePtr.NULL, TnodePtr.NULL,
            talloc idY Descriptor.ptfunction none (VoidPtr.word 9), TnodePtr.NULL]⟩ idY =
              Except.ok (VoidPtr.slot c)) ∧
        (Descriptor.ptfunction = Descriptor.ptfunction →
          VoidPtr.slot (Cell.bucket 2) = VoidPtr.slot c ∧
          pget lp64 ⟨4, false, [TnodePtr.NULL, TnodePtr.NULL,
            talloc idY Descriptor.ptfunction none (VoidPtr.word 9), TnodePtr.NULL]⟩ idY =
              Except.ok (VoidPtr.word 9))) ∧
      ((palloc 4).hasFreers = true ∧
        ∃ p' h cs, padd lp64 (palloc 4) idY Descriptor.ptfunction none (VoidPtr.word 9) =
          Except.ok (p', h, cs)) :=
  ⟨⟨by decide, rfl⟩, rfl,
    (C11_handle_shapes lp64 (palloc 4) idY Descriptor.ptfunction none (VoidPtr.word 9)
      ⟨by decide, rfl⟩).1 _ _ _ rfl,
    rfl,
    (C11_handle_shapes lp64 (palloc 4) idY Descriptor.ptfunction none (VoidPtr.word 9)
      ⟨by decide, rfl⟩).2 rfl⟩

/-! ## C12: release policy by kind -/

/-- C12: whenever the value of a node is discarded, by `tfreeval` itself, by the
overwrite in `tadd` or by the teardown in `tfree`, a `ptfunction` node and a
`ptunmanaged` node cause no destructor call, whatever destructor `f` they store,
and a `ptboxed` node with destructor `g` causes exactly the call `g(val)`. -/
theorem C12_release_policy (c : Cell) (i : CStr) (f : Freer) (g : Nat) (v : VoidPtr)
    (l r : TnodePtr) (d' : Descriptor) (f' : Freer) (v' : VoidPtr) :
    (tfreeval (TnodePtr.node i Descriptor.ptfunction f v l r) = Except.ok [] ∧
      tfreeval (TnodePtr.node i Descriptor.ptunmanaged f v l r) = Except.ok [] ∧
      tfreeval (TnodePtr.node i Descriptor.ptboxed (some g) v l r) = Except.ok [(g, v)]) ∧
    (tadd c (TnodePtr.node i Descriptor.ptfunction f v l r) i d' f' v' =
        Except.ok (TnodePtr.node i d' f' v' l r, taddReturn c d' v', []) ∧
      tadd c (TnodePtr.node i Descriptor.ptunmanaged f v l r) i d' f' v' =
        Except.ok (TnodePtr.node i d' f' v' l r, taddReturn c d' v', []) ∧
      tadd c (TnodePtr.node i Descriptor.ptboxed (some g) v l r) i d' f' v' =
        Except.ok (TnodePtr.node i d' f' v' l r, taddReturn c d' v', [(g, v)])) ∧
    (∀ a b, tfree l = Except.ok a → tfree r = Except.ok b →
      tfree (TnodePtr.node i Descriptor.ptfunction f v l r) = Except.ok (a ++ b) ∧
      tfree (TnodePtr.node i Descriptor.ptunmanaged f v l r) = Except.ok (a ++ b) ∧
      tfree (TnodePtr.node i Descriptor.ptboxed (some g) v l r) =
        Except.ok ((g, v) :: (a ++ b))) := by
  have h0 : ¬ strcmp i i ≠ 0 := by simp [strcmp_self]
  refine ⟨⟨rfl, rfl, rfl⟩, ⟨?_, ?_, ?_⟩, ?_⟩
  · rw [tadd_node_eq, if_neg h0]; rfl
  · rw [tadd_node_eq, if_neg h0]; rfl
  · rw [tadd_node_eq, if_neg h0]; rfl
  · intro a b ha hb
    refine ⟨?_, ?_, ?_⟩ <;> (rw [tfree, ha, hb]; rfl)

/-- C12 at a tree with root `"x"` and a `ptboxed` right child `"y"`: the
teardown of the root, whether `ptfunction`, `ptunmanaged` or `ptboxed`. -/
theorem C12_release_policy_witness :
    tfree TnodePtr.NULL = Except.ok [] ∧
      tfree (talloc idY Descriptor.ptboxed (some 2) (VoidPtr.word 7)) =
        Except.ok [(2, VoidPtr.word 7)] ∧
      tfree (TnodePtr.node idX Descriptor.ptfunction (some 3) (VoidPtr.word 5) TnodePtr.NULL
          (talloc idY Descriptor.ptboxed (some 2) (VoidPtr.word 7))) =
        Except.ok ([] ++ [(2, VoidPtr.word 7)]) ∧
      tfree (TnodePtr.node idX Descriptor.ptunmanaged (some 3) (VoidPtr.word 5) TnodePtr.NULL
          (talloc idY Descriptor.ptboxed (some 2) (VoidPtr.word 7))) =
        Except.ok ([] ++ [(2, VoidPtr.word 7)]) ∧
      tfree (TnodePtr.node idX Descriptor.ptboxed (some 1) (VoidPtr.word 5) TnodePtr.NULL
          (talloc idY Descriptor.ptboxed (some 2) (VoidPtr.word 7))) =
        Except.ok ((1, VoidPtr.word 5) :: ([] ++ [(2, VoidPtr.word 7)])) :=
  ⟨rfl, rfl,
    (C12_release_policy (Cell.bucket 0) idX (some 3) 1 (VoidPtr.word 5) TnodePtr.NULL
      (talloc idY Descriptor.ptboxed (some 2) (VoidPtr.word 7)) Descriptor.ptfunction none
      NULL).2.2 _ _ rfl rfl⟩

/-! ## C13: release of a `ptreference` node -/

/-- C13, as stated, fails: `padd` of `"x"` with kind `ptreference` and a null
destructor returns and stores the node; the release of that node, at the next
`padd` of `"x"` and at `pfree`, is a call through the null function pointer and
does not complete. -/
theorem C13_counterexample :
    padd lp64 (palloc 1) idX Descriptor.ptreference none (VoidPtr.word 5) =
        Except.ok (⟨1, false, [talloc idX Descriptor.ptreference none (VoidPtr.word 5)]⟩,
          VoidPtr.slot (Cell.bucket 0), []) ∧
      tfreeval (talloc idX Descriptor.ptreference none (VoidPtr.word 5)) =
        Except.error Fault.nullCall ∧
      padd lp64 ⟨1, false, [talloc idX Descriptor.ptreference none (VoidPtr.word 5)]⟩ idX
          Descriptor.ptunmanaged none (VoidPtr.word 7) = Except.error Fault.nullCall ∧
      pfree (ProtoPtr.live
          ⟨1, false, [talloc idX Descriptor.ptreference none (VoidPtr.word 5)]⟩) =
        Except.error Fault.nullCall :=
  ⟨rfl, rfl, rfl, rfl⟩

/-- C13 (amended): the release of a `ptreference` node that stores a destructor
`g` is exactly the call `g(val)`, by `tfreeval`, at the overwrite in `tadd` and
at the teardown in `tfree`.  When no destructor is supplied to the macro
`ptfieldr`, the node is stored with kind `ptunmanaged`, not `ptreference`, and
its release makes no call and completes; with a destructor `g` the macro stores
kind `ptreference` with `g`. -/
theorem C13_reference_release (c : Cell) (i : CStr) (g : Nat) (v : VoidPtr)
    (l r : TnodePtr) (d' : Descriptor) (f' : Freer) (v' : VoidPtr) (abi : Abi)
    (p : prototype) (hw : p.wf) :
    tfreeval (TnodePtr.node i Descriptor.ptreference (some g) v l r) = Except.ok [(g, v)] ∧
    tadd c (TnodePtr.node i Descriptor.ptreference (some g) v l r) i d' f' v' =
      Except.ok (TnodePtr.node i d' f' v' l r, taddReturn c d' v', [(g, v)]) ∧
    (∀ a b, tfree l = Except.ok a → tfree r = Except.ok b →
      tfree (TnodePtr.node i Descriptor.ptreference (some g) v l r) =
        Except.ok ((g, v) :: (a ++ b))) ∧
    (∀ p' h cs, ptfieldr abi p i none = Except.ok (p', h, cs) →
      ∃ k a b, p'.deref k = TnodePtr.node i Descriptor.ptunmanaged none NULL a b ∧
        tfreeval (p'.deref k) = Except.ok []) ∧
    (∀ p' h cs, ptfieldr abi p i (some g) = Except.ok (p', h, cs) →
      ∃ k a b, p'.deref k = TnodePtr.node i Descriptor.ptreference (some g) NULL a b ∧
        tfreeval (p'.deref k) = Except.ok [(g, NULL)]) := by
  have h0 : ¬ strcmp i i ≠ 0 := by simp [strcmp_self]
  refine ⟨rfl, ?_, ?_, ?_, ?_⟩
  · rw [tadd_node_eq, if_neg h0]; rfl
  · intro a b ha hb
    rw [tfree, ha, hb]; rfl
  · intro p' h cs hok
    obtain ⟨k, a, b, hk, _, _⟩ :=
      padd_spec abi p i Descriptor.ptunmanaged none NULL hw p' h cs hok
    exact ⟨k, a, b, hk, by rw [hk]; rfl⟩
  · intro p' h cs hok
    obtain ⟨k, a, b, hk, _, _⟩ :=
      padd_spec abi p i Descriptor.ptreference (some g) NULL hw p' h cs hok
    exact ⟨k, a, b, hk, by rw [hk]; rfl⟩

/-- C13 (amended) at a table of one bucket: `ptfieldr` of `"x"` without a
destructor stores a `ptunmanaged` node, and the table is torn down without any
call. -/
theorem C13_reference_release_witness :
    (palloc 1).wf ∧
      ptfieldr lp64 (palloc 1) idX none =
        Except.ok (⟨1, false, [talloc idX Descriptor.ptunmanaged none NULL]⟩,
          VoidPtr.slot (Cell.bucket 0), []) ∧
      pfree (ProtoPtr.live ⟨1, false, [talloc idX Descriptor.ptunmanaged none NULL]⟩) =
        Except.ok (ProtoPtr.released, []) ∧
      (∃ k a b,
        prototype.deref ⟨1, false, [talloc idX Descriptor.ptunmanaged none NULL]⟩ k =
          TnodePtr.node idX Descriptor.ptunmanaged none NULL a b ∧
        tfreeval (prototype.deref ⟨1, false, [talloc idX Descriptor.ptunmanaged none NULL]⟩ k)
          = Except.ok []) ∧
      tfree (TnodePtr.node idX Descriptor.ptreference (some 1) (VoidPtr.word 5)
          TnodePtr.NULL TnodePtr.NULL) = Except.ok ((1, VoidPtr.word 5) :: ([] ++ [])) :=
  ⟨⟨by decide, rfl⟩, rfl, rfl,
    (C13_reference_release (Cell.bucket 0) idX 1 (VoidPtr.word 5) TnodePtr.NULL TnodePtr.NULL
      Descriptor.ptunmanaged none NULL lp64 (palloc 1) ⟨by decide, rfl⟩).2.2.2.1 _ _ _ rfl,
    (C13_reference_release (Cell.bucket 0) idX 1 (VoidPtr.word 5) TnodePtr.NULL TnodePtr.NULL
      Descriptor.ptunmanaged none NULL lp64 (palloc 1) ⟨by decide, rfl⟩).2.2.1 _ _ rfl rfl⟩

/-! ## C14: a bucket count that is not positive -/

/-- C14, as stated, fails: `palloc(0)` returns a table, with `len` 0 and an
empty bucket array, and a later `padd` or `pget` on it divides by zero. -/
theorem C14_counterexample :
    palloc 0 = ⟨0, false, []⟩ ∧
      padd lp64 (palloc 0) idX Descriptor.ptunmanaged none (VoidPtr.word 7) =
        Except.error Fault.divByZero ∧
      pget lp64 (palloc 0) idX = Except.error Fault.divByZero :=
  ⟨rfl, rfl, rfl⟩

/-- C14 (amended): `palloc` makes no check of its argument: for every count
`len ≤ 0` it returns a table that records `len`, not freed, with an empty bucket
array, and every later `padd` and `pget` on that table has undefined behaviour
(a division by zero, or an access outside the bucket array). -/
theorem C14_bad_count (abi : Abi) (len : Int) (hlen : len ≤ 0) :
    palloc len = ⟨len, false, []⟩ ∧
      (∀ id d f v, ∃ e, padd abi (palloc len) id d f v = Except.error e) ∧
      (∀ id, ∃ e, pget abi (palloc len) id = Except.error e) := by
  have hp : palloc len = ⟨len, false, []⟩ := by
    unfold palloc
    rw [Int.toNat_of_nonpos hlen]
    rfl
  refine ⟨hp, ?_, ?_⟩
  · intro id d f v
    rw [hp]
    unfold padd bucketIndex
    by_cases h : toULong abi len = 0
    · exact ⟨Fault.divByZero, by simp [h, bind, Except.bind]⟩
    · exact ⟨Fault.outOfBounds, by simp [h, bind, Except.bind]⟩
  · intro id
    rw [hp]
    unfold pget bucketIndex
    by_cases h : toULong abi len = 0
    · exact ⟨Fault.divByZero, by simp [h, bind, Except.bind]⟩
    · exact ⟨Fault.outOfBounds, by simp [h, bind, Except.bind]⟩

/-- C14 (amended) at `palloc(-1)` on the 64-bit target: the table is returned and
`padd` steps outside its empty bucket array. -/
theorem C14_bad_count_witness :
    (-1 : Int) ≤ 0 ∧ palloc (-1) = ⟨-1, false, []⟩ ∧
      padd lp64 (palloc (-1)) idX Descriptor.ptunmanaged none (VoidPtr.word 7) =
        Except.error Fault.outOfBounds ∧
      (∀ id d f v, ∃ e, padd lp64 (palloc (-1)) id d f v = Except.error e) ∧
      (∀ id, ∃ e, pget lp64 (palloc (-1)) id = Except.error e) :=
  ⟨by decide, rfl, rfl, (C14_bad_count lp64 (-1) (by decide)).2⟩

/-! ## C15: the hash formula -/

/-- C15, as stated, fails where plain `char` is signed: on the 64-bit target the
one-byte string with byte 200 hashes to `5381 * 33 + (200 - 256) = 177517`, not
to `5381 * 33 + 200 = 177773`. -/
theorem C15_counterexample :
    phash lp64 ⟨[200], by decide⟩ = 177517 ∧ phashSpec 64 [200] = 177773 ∧
      phash lp64 ⟨[200], by decide⟩ ≠ phashSpec lp64.ulongBits [200] :=
  ⟨by decide, by decide, by decide⟩

/-- C15 (amended): `phash(s)` starts from 5381 and, for each byte in order,
replaces `hash` by `hash * 33 + c` modulo `2 ^ w`, `w` the width of
`unsigned long`, where `c` is the value of the byte as a plain `char`: the
byte's value in `0..255` when plain `char` is unsigned or the byte is below 128
(then `phash` is the formula of the specification), and the byte's value minus
256 when plain `char` is signed and the byte is 128 or more.  The hash of the
empty string is 5381, the hash of a non-empty string is below `2 ^ w`, and
strings with the same bytes have the same hash. -/
theorem C15_hash_formula (abi : Abi) (s : CStr) :
    ((abi.charSigned = false ∨ ∀ b ∈ s.val, b < 128) →
      phash abi s = phashSpec abi.ulongBits s.val) ∧
    (∀ (t : CStr) (b : Nat), 8 ≤ abi.ulongBits → t.val = s.val ++ [b] →
      (phash abi t : Int) =
        ((phash abi s : Int) * 33 +
          (if abi.charSigned = true ∧ 128 ≤ b then (b : Int) - 256 else (b : Int))) %
            2 ^ abi.ulongBits) ∧
    (s.val = [] → phash abi s = 5381) ∧
    (s.val ≠ [] → phash abi s < 2 ^ abi.ulongBits) ∧
    (∀ t : CStr, t.val = s.val → phash abi t = phash abi s) := by
  refine ⟨?_, ?_, ?_, ?_, ?_⟩
  · intro h
    have hc : ∀ b ∈ s.val, charToULong abi b = b := by
      intro b hb
      unfold charToULong
      rcases h with h | h
      · rw [if_neg (by simp [h])]
      · rw [if_neg (by have := h b hb; omega)]
    exact foldl_char_eq abi s.val hc 5381
  · intro t b hw ht
    have hpow : (256 : Nat) ≤ 2 ^ abi.ulongBits := by
      calc (256 : Nat) = 2 ^ 8 := by norm_num
        _ ≤ 2 ^ abi.ulongBits := Nat.pow_le_pow_right (by norm_num) hw
    unfold phash
    rw [ht, List.foldl_append, List.foldl_cons, List.foldl_nil]
    generalize List.foldl (fun hash b => (hash * 33 + charToULong abi b) % 2 ^ abi.ulongBits)
      5381 s.val = a
    unfold charToULong
    by_cases hs : abi.charSigned = true ∧ 128 ≤ b
    · rw [if_pos hs, if_pos hs]
      push_cast
      rw [Nat.cast_sub hpow]
      push_cast
      have : (a : Int) * 33 + ((2 : Int) ^ abi.ulongBits - 256 + b) =
          ((a : Int) * 33 + ((b : Int) - 256)) + 2 ^ abi.ulongBits := by ring
      rw [this, Int.add_emod_self]
    · rw [if_neg hs, if_neg hs]
      push_cast
      rfl
  · intro h
    unfold phash
    rw [h]
    rfl
  · intro h
    unfold phash
    obtain ⟨bs, b, hb⟩ : ∃ bs b, s.val = bs ++ [b] := by
      rcases List.eq_nil_or_concat s.val with h' | ⟨bs, b, h'⟩
      · exact absurd h' h
      · exact ⟨bs, b, by rw [h']; simp⟩
    rw [hb, List.foldl_append, List.foldl_cons, List.foldl_nil]
    exact Nat.mod_lt _ (Nat.two_pow_pos _)
  · intro t ht
    unfold phash
    rw [ht]

/-- C15 (amended) at the strings `"x"` and `"x"` followed by the byte 200, on the
64-bit target. -/
theorem C15_hash_formula_witness :
    phash lp64 idX = phashSpec 64 [120] ∧ phash lp64 idX = 177693 ∧
      (phash lp64 ⟨[120, 200], by decide⟩ : Int) =
        ((phash lp64 idX : Int) * 33 +
          (if lp64.charSigned = true ∧ 128 ≤ 200 then ((200 : Nat) : Int) - 256
            else ((200 : Nat) : Int))) % 2 ^ lp64.ulongBits ∧
      phash lp64 idX < 2 ^ 64 :=
  ⟨(C15_hash_formula lp64 idX).1 (Or.inr (by decide)), by decide,
    (C15_hash_formula lp64 idX).2.1 ⟨[120, 200], by decide⟩ 200 (by decide) rfl,
    (C15_hash_formula lp64 idX).2.2.2.1 (by decide)⟩

/-! ## C16: order and coverage of the teardown of a tree -/

/-- C16, as stated, fails: on the tree whose root `"x"` has kind `ptreference`
and a null destructor and whose right child `"y"` has kind `ptboxed` with
destructor 2 and value 7, `tfree` stops at the root with a call through the null
function pointer, and the value of `"y"` is never released. -/
theorem C16_counterexample :
    tfree (TnodePtr.node idX Descriptor.ptreference none (VoidPtr.word 5) TnodePtr.NULL
        (talloc idY Descriptor.ptboxed (some 2) (VoidPtr.word 7))) =
      Except.error Fault.nullCall ∧
    tfree (talloc idY Descriptor.ptboxed (some 2) (VoidPtr.word 7)) =
      Except.ok [(2, VoidPtr.word 7)] :=
  ⟨rfl, rfl⟩

/-- C16 (amended): for every tree in which every owned node (`ptboxed` or
`ptreference`) has a destructor that is not null, `tfree` returns and its
destructor calls, as (destructor, argument) pairs, are the (destructor, payload)
pairs of the `ptboxed` and `ptreference` nodes in pre-order (a node first, then
its left subtree, then its right subtree), one call per such node and none for
the other nodes.  `tfree` returns on no other tree, and `tfree` of the null
pointer makes no call. -/
theorem C16_teardown_order (t : TnodePtr) :
    (t.hasFreers = true → ∃ cs, tfree t = Except.ok cs ∧
      cs.map (fun c => ((some c.1 : Freer), c.2)) =
        (t.preorder.filter (fun e => e.2.1.owned)).map (fun e => (e.2.2.1, e.2.2.2))) ∧
    (∀ cs, tfree t = Except.ok cs → t.hasFreers = true ∧
      cs.map (fun c => ((some c.1 : Freer), c.2)) =
        (t.preorder.filter (fun e => e.2.1.owned)).map (fun e => (e.2.2.1, e.2.2.2))) ∧
    tfree TnodePtr.NULL = Except.ok [] := by
  have key : ∀ cs, tfree t = Except.ok cs → t.hasFreers = true ∧
      cs.map (fun c => ((some c.1 : Freer), c.2)) =
        (t.preorder.filter (fun e => e.2.1.owned)).map (fun e => (e.2.2.1, e.2.2.2)) := by
    intro cs h
    have hf := tfree_ok_hasFreers t cs h
    refine ⟨hf, ?_⟩
    rw [tfree_eq t hf] at h
    cases h
    apply owed_map_eq
    rw [hasFreers_preorder, List.all_eq_true] at hf
    exact hf
  exact ⟨fun hf => ⟨_, tfree_eq t hf, (key _ (tfree_eq t hf)).2⟩, key, rfl⟩

/-- C16 (amended) at a tree with root `"x"` (`ptboxed`, destructor 1, value 5),
no left child and right child `"y"` (`ptreference`, destructor 2, value 7): the
root is released first. -/
theorem C16_teardown_order_witness :
    (TnodePtr.node idX Descriptor.ptboxed (some 1) (VoidPtr.word 5) TnodePtr.NULL
        (talloc idY Descriptor.ptreference (some 2) (VoidPtr.word 7))).hasFreers = true ∧
    tfree (TnodePtr.node idX Descriptor.ptboxed (some 1) (VoidPtr.word 5) TnodePtr.NULL
        (talloc idY Descriptor.ptreference (some 2) (VoidPtr.word 7))) =
      Except.ok [(1, VoidPtr.word 5), (2, VoidPtr.word 7)] ∧
    (∃ cs, tfree (TnodePtr.node idX Descriptor.ptboxed (some 1) (VoidPtr.word 5)
        TnodePtr.NULL (talloc idY Descriptor.ptreference (some 2) (VoidPtr.word 7))) =
          Except.ok cs ∧
      cs.map (fun c => ((some c.1 : Freer), c.2)) =
        ((TnodePtr.node idX Descriptor.ptboxed (some 1) (VoidPtr.word 5) TnodePtr.NULL
          (talloc idY Descriptor.ptreference (some 2) (VoidPtr.word 7))).preorder.filter
            (fun e => e.2.1.owned)).map (fun e => (e.2.2.1, e.2.2.2))) ∧
    ((TnodePtr.node idX Descriptor.ptboxed (some 1) (VoidPtr.word 5) TnodePtr.NULL
        (talloc idY Descriptor.ptreference (some 2) (VoidPtr.word 7))).hasFreers = true ∧
      [(1, VoidPtr.word 5), (2, VoidPtr.word 7)].map (fun c => ((some c.1 : Freer), c.2)) =
        ((TnodePtr.node idX Descriptor.ptboxed (some 1) (VoidPtr.word 5) TnodePtr.NULL
          (talloc idY Descriptor.ptreference (some 2) (VoidPtr.word 7))).preorder.filter
            (fun e => e.2.1.owned)).map (fun e => (e.2.2.1, e.2.2.2))) :=
  ⟨rfl, rfl,
    (C16_teardown_order (TnodePtr.node idX Descriptor.ptboxed (some 1) (VoidPtr.word 5)
      TnodePtr.NULL (talloc idY Descriptor.ptreference (some 2) (VoidPtr.word 7)))).1 rfl,
    (C16_teardown_order (TnodePtr.node idX Descriptor.ptboxed (some 1) (VoidPtr.word 5)
      TnodePtr.NULL (talloc idY Descriptor.ptreference (some 2) (VoidPtr.word 7)))).2.1 _ rfl⟩

/-! ## C17: insert creates a leaf, update mutates in place -/

/-- C17, as stated, fails: the tree whose root holds `"x"` with kind `ptboxed`,
a null destructor and value 5 is in ascending order and holds `"x"`, and `tadd`
of `"x"` with kind `ptunmanaged` and value 7 stops at the release of the old
value, a call through the null function pointer: the node is not changed. -/
theorem C17_counterexample :
    ascending (talloc idX Descriptor.ptboxed none (VoidPtr.word 5)).keys ∧
      idX ∈ (talloc idX Descriptor.ptboxed none (VoidPtr.word 5)).keys ∧
      tadd (Cell.bucket 0) (talloc idX Descriptor.ptboxed none (VoidPtr.word 5)) idX
        Descriptor.ptunmanaged none (VoidPtr.word 7) = Except.error Fault.nullCall :=
  ⟨List.chain'_singleton _, by decide, rfl⟩

/-- C17 (amended): on a tree in ascending order, `tadd` of an identifier the tree
does not hold returns without any release and replaces one null pointer of the
tree by a leaf (both children null) holding the given identifier, kind,
destructor and payload: one node more, and every other cell keeps its node with
the same identifier, kind, destructor and payload.  `tadd` of an identifier the
tree holds, provided the node holding it is not an owned node (`ptboxed` or
`ptreference`) with a null destructor, returns and replaces that node by a node
with the same identifier and children and the new kind, destructor and payload:
same identifiers in the same order, same number of nodes, every other cell as
before.  The same holds of every such `tadd` that returns. -/
theorem C17_insert_or_update (c : Cell) (t : TnodePtr) (id : CStr) (d : Descriptor)
    (f : Freer) (v : VoidPtr) (hs : ascending t.keys) :
    (id ∉ t.keys → ∃ t' h path, tadd c t id d f v = Except.ok (t', h, []) ∧
      t.sub path = TnodePtr.NULL ∧
      t'.sub path = TnodePtr.node id d f v TnodePtr.NULL TnodePtr.NULL ∧
      t' = t.put path (TnodePtr.node id d f v TnodePtr.NULL TnodePtr.NULL) ∧
      (∀ q, q ≠ path → (t'.sub q).fields = (t.sub q).fields) ∧
      t'.entries.length = t.entries.length + 1) ∧
    (id ∈ t.keys →
      ((∀ e ∈ t.entries, e.1 = id → Entry.hasFreer e = true) →
        ∃ t' h cs path k g w l r, tadd c t id d f v = Except.ok (t', h, cs) ∧
          t.sub path = TnodePtr.node id k g w l r ∧
          t'.sub path = TnodePtr.node id d f v l r ∧
          t' = t.put path (TnodePtr.node id d f v l r) ∧
          (∀ q, q ≠ path → (t'.sub q).fields = (t.sub q).fields) ∧
          t'.entries.length = t.entries.length ∧ t'.keys = t.keys) ∧
      (∀ t' h cs, tadd c t id d f v = Except.ok (t', h, cs) →
        ∃ path k g w l r, t.sub path = TnodePtr.node id k g w l r ∧
          t'.sub path = TnodePtr.node id d f v l r ∧
          t' = t.put path (TnodePtr.node id d f v l r) ∧
          (∀ q, q ≠ path → (t'.sub q).fields = (t.sub q).fields) ∧
          t'.entries.length = t.entries.length ∧ t'.keys = t.keys)) := by
  constructor
  · intro hn
    obtain ⟨t', h, hok⟩ := tadd_absent c t id d f v hn
    obtain ⟨path, A, B, hA, hB⟩ := tadd_shape c t id d f v t' h [] hok
    rcases hB with ⟨e1, e2, e3, e4, _⟩ | ⟨k, g, w, l, r, _, _, _, e4, _⟩
    · refine ⟨t', h, path, hok, e1, e3, e2, ?_, by rw [hA, e4]; simp; omega⟩
      intro q hq
      rw [e2]
      apply fields_put _ _ _ _ hq
      intro s
      rw [e1]
      cases s <;> rfl
    · exfalso
      apply hn
      rw [TnodePtr.keys, e4]
      simp
  · intro hm
    have key : ∀ t' h cs, tadd c t id d f v = Except.ok (t', h, cs) →
        ∃ path k g w l r, t.sub path = TnodePtr.node id k g w l r ∧
          t'.sub path = TnodePtr.node id d f v l r ∧
          t' = t.put path (TnodePtr.node id d f v l r) ∧
          (∀ q, q ≠ path → (t'.sub q).fields = (t.sub q).fields) ∧
          t'.entries.length = t.entries.length ∧ t'.keys = t.keys := by
      intro t' h cs hok
      obtain ⟨path, A, B, hA, hB⟩ := tadd_shape c t id d f v t' h cs hok
      rcases hB with ⟨_, _, _, e4, _⟩ | ⟨k, g, w, l, r, e1, e2, e3, e4, _⟩
      · exfalso
        have hn' := pairwise_nodup _
          (tadd_pairwise _ _ _ _ _ _ _ _ _ ((ascending_iff_pairwise _).1 hs) hok)
        have hmem : id ∈ A.map Prod.fst ++ B.map Prod.fst := by
          rw [← List.map_append, ← e4]
          exact hm
        simp only [TnodePtr.keys, hA, List.map_append, List.map_cons] at hn'
        rw [List.nodup_append] at hn'
        obtain ⟨_, hb, hdis⟩ := hn'
        rcases List.mem_append.1 hmem with hx | hx
        · exact hdis hx (List.mem_cons_self _ _)
        · exact (List.nodup_cons.1 hb).1 hx
      · refine ⟨path, k, g, w, l, r, e1, e3, e2, ?_, by rw [hA, e4]; simp,
          by simp [TnodePtr.keys, hA, e4]⟩
        intro q hq
        rw [e2]
        apply fields_put _ _ _ _ hq
        intro s
        rw [e1]
        cases s <;> rfl
    refine ⟨?_, key⟩
    intro hrel
    obtain ⟨t', h, cs, hok⟩ := tadd_ok_of_releasable c t id d f v hrel
    obtain ⟨path, k, g, w, l, r, hk⟩ := key t' h cs hok
    exact ⟨t', h, cs, path, k, g, w, l, r, hok, hk⟩

/-- C17 (amended) at the tree holding `"x"` as `ptboxed` with destructor 1 and
value 5: inserting `"y"` hangs a leaf under the root on the right, and
re-inserting `"x"` as `ptunmanaged` changes the root in place. -/
theorem C17_insert_or_update_witness :
    ascending (talloc idX Descriptor.ptboxed (some 1) (VoidPtr.word 5)).keys ∧
      idY ∉ (talloc idX Descriptor.ptboxed (some 1) (VoidPtr.word 5)).keys ∧
      idX ∈ (talloc idX Descriptor.ptboxed (some 1) (VoidPtr.word 5)).keys ∧
      (∀ e ∈ (talloc idX Descriptor.ptboxed (some 1) (VoidPtr.word 5)).entries,
        e.1 = idX → Entry.hasFreer e = true) ∧
      tadd (Cell.bucket 0) (talloc idX Descriptor.ptboxed (some 1) (VoidPtr.word 5)) idY
          Descriptor.ptunmanaged none (VoidPtr.word 7) =
        Except.ok (TnodePtr.node idX Descriptor.ptboxed (some 1) (VoidPtr.word 5)
          TnodePtr.NULL (talloc idY Descriptor.ptunmanaged none (VoidPtr.word 7)),
          VoidPtr.slot (Cell.right (Cell.bucket 0)), []) ∧
      tadd (Cell.bucket 0) (talloc idX Descriptor.ptboxed (some 1) (VoidPtr.word 5)) idX
          Descriptor.ptunmanaged none (VoidPtr.word 7) =
        Except.ok (talloc idX Descriptor.ptunmanaged none (VoidPtr.word 7),
          VoidPtr.slot (Cell.bucket 0), [(1, VoidPtr.word 5)]) ∧
      (∃ t' h path,
        tadd (Cell.bucket 0) (talloc idX Descriptor.ptboxed (some 1) (VoidPtr.word 5)) idY
          Descriptor.ptunmanaged none (VoidPtr.word 7) = Except.ok (t', h, []) ∧
        (talloc idX Descriptor.ptboxed (some 1) (VoidPtr.word 5)).sub path = TnodePtr.NULL ∧
        t'.sub path =
          TnodePtr.node idY Descriptor.ptunmanaged none (VoidPtr.word 7)
            TnodePtr.NULL TnodePtr.NULL ∧
        t' = (talloc idX Descriptor.ptboxed (some 1) (VoidPtr.word 5)).put path
          (TnodePtr.node idY Descriptor.ptunmanaged none (VoidPtr.word 7)
            TnodePtr.NULL TnodePtr.NULL) ∧
        (∀ q, q ≠ path → (t'.sub q).fields =
          ((talloc idX Descriptor.ptboxed (some 1) (VoidPtr.word 5)).sub q).fields) ∧
        t'.entries.length =
          (talloc idX Descriptor.ptboxed (some 1) (VoidPtr.word 5)).entries.length + 1) ∧
      (∃ t' h cs path k g w l r,
        tadd (Cell.bucket 0) (talloc idX Descriptor.ptboxed (some 1) (VoidPtr.word 5)) idX
          Descriptor.ptunmanaged none (VoidPtr.word 7) = Except.ok (t', h, cs) ∧
        (talloc idX Descriptor.ptboxed (some 1) (VoidPtr.word 5)).sub path =
          TnodePtr.node idX k g w l r ∧
        t'.sub path = TnodePtr.node idX Descriptor.ptunmanaged none (VoidPtr.word 7) l r ∧
        t' = (talloc idX Descriptor.ptboxed (some 1) (VoidPtr.word 5)).put path
          (TnodePtr.node idX Descriptor.ptunmanaged none (VoidPtr.word 7) l r) ∧
        (∀ q, q ≠ path → (t'.sub q).fields =
          ((talloc idX Descriptor.ptboxed (some 1) (VoidPtr.word 5)).sub q).fields) ∧
        t'.entries.length =
          (talloc idX Descriptor.ptboxed (some 1) (VoidPtr.word 5)).entries.length ∧
        t'.keys = (talloc idX Descriptor.ptboxed (some 1) (VoidPtr.word 5)).keys) :=
  ⟨List.chain'_singleton _, by decide, by decide, by decide, rfl, rfl,
    (C17_insert_or_update (Cell.bucket 0)
      (talloc idX Descriptor.ptboxed (some 1) (VoidPtr.word 5)) idY Descriptor.ptunmanaged
      none (VoidPtr.word 7) (List.chain'_singleton _)).1 (by decide),
    ((C17_insert_or_update (Cell.bucket 0)
      (talloc idX Descriptor.ptboxed (some 1) (VoidPtr.word 5)) idX Descriptor.ptunmanaged
      none (VoidPtr.word 7) (List.chain'_singleton _)).2 (by decide)).1 (by decide)⟩

/-! ## C18: bucket selection -/

/-- C18: in a table laid out with a positive bucket count `len`, for every
identifier the subscript `phash(identifier) % len` is one number `i` in
`[0, len)`, inside the bucket array; `pget` is `tget` and `padd` is `tadd` on
bucket `i`, so neither divides by zero nor steps outside the array (the only
fault `padd` can meet is the call of a null destructor); a `padd` that returns
stores the new root in bucket `i` and leaves `len`, the freed flag and every
other bucket as they were. -/
theorem C18_bucket_selection (abi : Abi) (p : prototype) (id : CStr) (d : Descriptor)
    (f : Freer) (v : VoidPtr) (hw : p.wf) :
    ∃ i : Nat, (i : Int) = (phash abi id : Int) % p.len ∧ (i : Int) < p.len ∧
      i < p.nodes.length ∧ bucketIndex abi p id = Except.ok i ∧
      pget abi p id = Except.ok (tget (Cell.bucket i) (p.nodes.getD i TnodePtr.NULL) id) ∧
      padd abi p id d f v =
        (tadd (Cell.bucket i) (p.nodes.getD i TnodePtr.NULL) id d f v).map
          (fun x => ({ p with nodes := p.nodes.set i x.1 }, x.2.1, x.2.2)) ∧
      (∀ p' h cs, padd abi p id d f v = Except.ok (p', h, cs) →
        p'.len = p.len ∧ p'.freed = p.freed ∧ p'.nodes.length = p.nodes.length ∧
        ∀ j, j ≠ i → p'.nodes[j]? = p.nodes[j]?) ∧
      (∀ e, padd abi p id d f v = Except.error e → e = Fault.nullCall) := by
  obtain ⟨h1, h2⟩ := bucketIndex_wf abi p id hw
  have hc : ((p.len.toNat : Nat) : Int) = p.len := Int.toNat_of_nonneg (le_of_lt hw.1)
  refine ⟨phash abi id % p.len.toNat, ?_, ?_, h2, h1, pget_wf_eq abi p id hw,
    padd_wf_eq abi p id d f v hw, ?_, padd_error abi p id d f v hw⟩
  · conv => rhs; rw [← hc]
    norm_cast
  · rw [hw.2] at h2
    omega
  · intro p' h cs hok
    obtain ⟨a, b, c⟩ := padd_len abi p id d f v hw p' h cs hok
    refine ⟨a, b, c, ?_⟩
    intro j hj
    obtain ⟨t', _, hp⟩ := padd_ok_inv abi p id d f v hw p' h cs hok
    rw [hp]
    exact List.getElem?_set_ne (fun e => hj e.symm)

/-- C18 at a table of four buckets: `"x"` selects bucket 1. -/
theorem C18_bucket_selection_witness :
    (palloc 4).wf ∧ bucketIndex lp64 (palloc 4) idX = Except.ok 1 ∧
      ∃ i : Nat, (i : Int) = (phash lp64 idX : Int) % (palloc 4).len ∧
        (i : Int) < (palloc 4).len ∧ i < (palloc 4).nodes.length ∧
        bucketIndex lp64 (palloc 4) idX = Except.ok i ∧
        pget lp64 (palloc 4) idX =
          Except.ok (tget (Cell.bucket i) ((palloc 4).nodes.getD i TnodePtr.NULL) idX) ∧
        padd lp64 (palloc 4) idX Descriptor.ptunmanaged none (VoidPtr.word 7) =
          (tadd (Cell.bucket i) ((palloc 4).nodes.getD i TnodePtr.NULL) idX
            Descriptor.ptunmanaged none (VoidPtr.word 7)).map
            (fun x => ({ palloc 4 with nodes := (palloc 4).nodes.set i x.1 }, x.2.1, x.2.2)) ∧
        (∀ p' h cs, padd lp64 (palloc 4) idX Descriptor.ptunmanaged none (VoidPtr.word 7) =
            Except.ok (p', h, cs) →
          p'.len = (palloc 4).len ∧ p'.freed = (palloc 4).freed ∧
          p'.nodes.length = (palloc 4).nodes.length ∧
          ∀ j, j ≠ i → p'.nodes[j]? = (palloc 4).nodes[j]?) ∧
        (∀ e, padd lp64 (palloc 4) idX Descriptor.ptunmanaged none (VoidPtr.word 7) =
          Except.error e → e = Fault.nullCall) :=
  ⟨⟨by decide, rfl⟩, rfl,
    C18_bucket_selection lp64 (palloc 4) idX Descriptor.ptunmanaged none (VoidPtr.word 7)
      ⟨by decide, rfl⟩⟩

/-! ## C19: inserts do not disturb other identifiers -/

/-- C19: in a table laid out with a positive bucket count (every table built
from `palloc` by `padd` calls is one), for every two distinct identifiers `a` and
`b`, after a `padd` of `a` that returns, `pget` of `b` returns what it returned
before, and the nodes holding `b` are the same, with the same kind, destructor
and payload, whether `a` and `b` select the same bucket or not.  `padd` returns
whenever every owned node of the table has a destructor. -/
theorem C19_frame (abi : Abi) (p : prototype) (a b : CStr) (d : Descriptor) (f : Freer)
    (v : VoidPtr) (hw : p.wf) (hab : a ≠ b) :
    (∀ p' h cs, padd abi p a d f v = Except.ok (p', h, cs) →
      pget abi p' b = pget abi p b ∧
      p'.entries.filter (fun e => decide (e.1 = b)) =
        p.entries.filter (fun e => decide (e.1 = b))) ∧
    (p.hasFreers = true → ∃ p' h cs, padd abi p a d f v = Except.ok (p', h, cs)) :=
  ⟨pget_padd_other abi p a b d f v hw hab, padd_ok_of_hasFreers abi p a d f v hw⟩

/-- C19 at a table of one bucket holding `"x"`: inserting `"y"` into the same
bucket leaves `pget` of `"x"` at the value 5. -/
theorem C19_frame_witness :
    prototype.wf ⟨1, false, [talloc idX Descriptor.ptboxed (some 1) (VoidPtr.word 5)]⟩ ∧
      idY ≠ idX ∧
      padd lp64 ⟨1, false, [talloc idX Descriptor.ptboxed (some 1) (VoidPtr.word 5)]⟩ idY
          Descriptor.ptunmanaged none (VoidPtr.word 7) =
        Except.ok (⟨1, false, [TnodePtr.node idX Descriptor.ptboxed (some 1) (VoidPtr.word 5)
          TnodePtr.NULL (talloc idY Descriptor.ptunmanaged none (VoidPtr.word 7))]⟩,
          VoidPtr.slot (Cell.right (Cell.bucket 0)), []) ∧
      pget lp64 ⟨1, false, [talloc idX Descriptor.ptboxed (some 1) (VoidPtr.word 5)]⟩ idX =
        Except.ok (VoidPtr.word 5) ∧
      pget lp64 ⟨1, false, [TnodePtr.node idX Descriptor.ptboxed (some 1) (VoidPtr.word 5)
          TnodePtr.NULL (talloc idY Descriptor.ptunmanaged none (VoidPtr.word 7))]⟩ idX =
        pget lp64 ⟨1, false, [talloc idX Descriptor.ptboxed (some 1) (VoidPtr.word 5)]⟩ idX :=
  ⟨⟨by decide, rfl⟩, by decide, rfl, rfl,
    ((C19_frame lp64 ⟨1, false, [talloc idX Descriptor.ptboxed (some 1) (VoidPtr.word 5)]⟩
      idY idX Descriptor.ptunmanaged none (VoidPtr.word 7) ⟨by decide, rfl⟩ (by decide)).1
      _ _ _ rfl).1⟩

/-! ## C20: a null payload of a direct kind reads as a miss -/

/-- C20: in a table laid out with a positive bucket count, after a `padd` of an
identifier with kind `ptfunction` or `ptboxed` and a null payload that returns
(the macro `ptmethod` makes such a call), `pget` of the identifier returns the
null pointer although a node holds the identifier; `pget` also returns the null
pointer for every identifier no node holds, and so a result of `pget` that is
not null implies that a node holds the identifier, while a null result does
not imply that none does.  `padd` returns whenever every owned node of the table
has a destructor. -/
theorem C20_null_payload (abi : Abi) (p : prototype) (id : CStr) (d : Descriptor) (f : Freer)
    (hw : p.wf) (hd : d = Descriptor.ptfunction ∨ d = Descriptor.ptboxed) :
    (∀ p' h cs, padd abi p id d f NULL = Except.ok (p', h, cs) →
      pget abi p' id = Except.ok NULL ∧ id ∈ p'.entries.map Prod.fst ∧
      ∃ c l r, p'.deref c = TnodePtr.node id d f NULL l r) ∧
    (∀ p' h cs, ptmethod abi p id = Except.ok (p', h, cs) →
      pget abi p' id = Except.ok NULL ∧ id ∈ p'.entries.map Prod.fst) ∧
    (p.hasFreers = true → ∃ p' h cs, padd abi p id d f NULL = Except.ok (p', h, cs)) ∧
    (∀ id', id' ∉ p.entries.map Prod.fst → pget abi p id' = Except.ok NULL) ∧
    (∀ id' h, pget abi p id' = Except.ok h → h ≠ NULL → id' ∈ p.entries.map Prod.fst) := by
  have key : ∀ (k : Descriptor) (g : Freer),
      (k = Descriptor.ptfunction ∨ k = Descriptor.ptboxed) →
      ∀ p' h cs, padd abi p id k g NULL = Except.ok (p', h, cs) →
        pget abi p' id = Except.ok NULL ∧ id ∈ p'.entries.map Prod.fst ∧
        ∃ c l r, p'.deref c = TnodePtr.node id k g NULL l r := by
    intro k g hk p' h cs hok
    obtain ⟨c, l, r, hc, _, hg⟩ := padd_spec abi p id k g NULL hw p' h cs hok
    refine ⟨?_, (padd_keys_mono abi p id k g NULL hw p' h cs hok).1, c, l, r, hc⟩
    rw [hg]
    rcases hk with rfl | rfl <;> rfl
  refine ⟨key d f hd, ?_, padd_ok_of_hasFreers abi p id d f NULL hw,
    fun id' hn => pget_absent abi p id' hw hn, ?_⟩
  · intro p' h cs hok
    obtain ⟨a, b, _⟩ := key Descriptor.ptfunction none (Or.inl rfl) p' h cs hok
    exact ⟨a, b⟩
  · intro id' h hg hne
    by_contra hn
    rw [pget_absent abi p id' hw hn] at hg
    cases hg
    exact hne rfl

/-- C20 at a table of four buckets: after `ptmethod` of `"y"` the `pget` of `"y"`
returns the null pointer, as does the `pget` of `"x"`, which was never inserted. -/
theorem C20_null_payload_witness :
    (palloc 4).wf ∧
      (Descriptor.ptfunction = Descriptor.ptfunction ∨
        Descriptor.ptfunction = Descriptor.ptboxed) ∧
      ptmethod lp64 (palloc 4) idY =
        Except.ok (⟨4, false, [TnodePtr.NULL, TnodePtr.NULL,
          talloc idY Descriptor.ptfunction none NULL, TnodePtr.NULL]⟩,
          VoidPtr.slot (Cell.bucket 2), []) ∧
      pget lp64 ⟨4, false, [TnodePtr.NULL, TnodePtr.NULL,
          talloc idY Descriptor.ptfunction none NULL, TnodePtr.NULL]⟩ idX = Except.ok NULL ∧
      (pget lp64 ⟨4, false, [TnodePtr.NULL, TnodePtr.NULL,
          talloc idY Descriptor.ptfunction none NULL, TnodePtr.NULL]⟩ idY = Except.ok NULL ∧
        idY ∈ (prototype.entries ⟨4, false, [TnodePtr.NULL, TnodePtr.NULL,
          talloc idY Descriptor.ptfunction none NULL, TnodePtr.NULL]⟩).map Prod.fst) :=
  ⟨⟨by decide, rfl⟩, Or.inl rfl, rfl, rfl,
    (C20_null_payload lp64 (palloc 4) idY Descriptor.ptfunction none ⟨by decide, rfl⟩
      (Or.inl rfl)).2.1 _ _ _ rfl⟩

end Ptoop
